import Mathlib

/-!
# Verification of the AutoDSPyUI serving runtime

Shallow embedding of the serving core of this repository:

* `autodspy/serving/data_exporter.py` — `DataExporter.export_training_data`,
  `DataExporter._export_csv`, `DataExporter._export_json`,
  `DataExporter.export_streaming`;
* `autodspy/serving/model_manager.py` — `CachedModel`, `CacheStats`,
  `ModelManager._build_model_uri`, `ModelManager._get_cache_key`,
  `ModelManager.load_model`, `ModelManager.invalidate_cache`,
  `ModelManager.invalidate_all`;
* `autodspy/serving/feedback.py` — `FeedbackRecord`,
  `FeedbackService.record_feedback`, `FeedbackService.validate_trace_exists`.

Python strings are modelled as `List Char` (UTF-8 encoding of equal strings is
equal byte-for-byte and the encoding is injective, so byte equality of the
produced documents is equality of the corresponding `List Char` values).
External collaborators (MLflow artifact store, trace store, clock, uuid
generator) are passed in explicitly as call-site parameters, matching the
spec's collaborator boundaries.
-/

/-! ## Python JSON values

`JVal` models the Python values that flow through the exporter and the
feedback service: results of `json.loads`, arguments of `json.dumps`. -/
inductive JVal : Type where
  | null : JVal
  | bool : Bool → JVal
  | num : Int → JVal
  | str : String → JVal
  | arr : List JVal → JVal
  | obj : List (String × JVal) → JVal

/-- Lexicographic code-point order on character lists: the order Python's
`sorted` uses on strings. -/
def lexLeCh : List Char → List Char → Bool
  | [], _ => true
  | _ :: _, [] => false
  | a :: as, b :: bs =>
    if a.toNat < b.toNat then true
    else if b.toNat < a.toNat then false
    else lexLeCh as bs

/-- Python `<=` on strings (code-point lexicographic). -/
def pyStrLe (a b : String) : Bool :=
  lexLeCh a.data b.data

/-- `sorted(...)` on a list of strings. -/
def pySorted (l : List String) : List String :=
  List.insertionSort (fun a b => pyStrLe a b = true) l

/-- Python `str.startswith`. -/
def pyStartsWith (s pre : String) : Bool :=
  pre.data.isPrefixOf s.data

/-! ## `json.dumps`

Compact form (default separators `", "` and `": "`, `ensure_ascii=False`) is
used by the exporter for complex CSV cell values; the indented form
(`indent=2`, separators `","` and `": "`) is used by `_export_json`. -/
/-- JSON escaping of one character inside a string literal
(`ensure_ascii=False`: non-ASCII characters are kept as-is). -/
def jsonEscapeChar (c : Char) : List Char :=
  if c = '"' then ['\\', '"']
  else if c = '\\' then ['\\', '\\']
  else if c = '\n' then ['\\', 'n']
  else if c = '\r' then ['\\', 'r']
  else if c = '\t' then ['\\', 't']
  else if c = '\x08' then ['\\', 'b']
  else if c = '\x0c' then ['\\', 'f']
  else if c.toNat < 32 then
    let hex := fun (n : Nat) => if n < 10 then Char.ofNat (48 + n) else Char.ofNat (87 + n)
    ['\\', 'u', '0', '0', hex (c.toNat / 16), hex (c.toNat % 16)]
  else [c]

/-- A JSON string literal, quotes included. -/
def jsonStr (s : String) : List Char :=
  '"' :: s.data.flatMap jsonEscapeChar ++ ['"']

mutual

/-- `json.dumps(v, ensure_ascii=False)` with default separators. -/
def jdump : JVal → List Char
  | .null => "null".data
  | .bool b => if b then "true".data else "false".data
  | .num n => (toString n).data
  | .str s => jsonStr s
  | .arr xs => '[' :: List.intercalate (", ".data) (jdumpItems xs) ++ [']']
  | .obj kvs => '\x7b' :: List.intercalate (", ".data) (jdumpFields kvs) ++ ['\x7d']

def jdumpItems : List JVal → List (List Char)
  | [] => []
  | v :: vs => jdump v :: jdumpItems vs

def jdumpFields : List (String × JVal) → List (List Char)
  | [] => []
  | (k, v) :: kvs => (jsonStr k ++ ": ".data ++ jdump v) :: jdumpFields kvs

end

/-- `indent * level` spaces, the indentation `json.dumps(..., indent=indent)`
puts before each element. -/
def jIndent (indent level : Nat) : List Char :=
  List.replicate (indent * level) ' '

mutual

/-- `json.dumps(v, ensure_ascii=False, indent=indent)` at nesting `level`:
with an indent, item separators become `",\n" + indentation` and empty
containers print as `[]` / `\x7b\x7d`. -/
def jdumpPretty (indent level : Nat) : JVal → List Char
  | .null => "null".data
  | .bool b => if b then "true".data else "false".data
  | .num n => (toString n).data
  | .str s => jsonStr s
  | .arr [] => "[]".data
  | .arr (x :: xs) =>
    '[' :: '\n' :: jIndent indent (level + 1) ++
      List.intercalate (',' :: '\n' :: jIndent indent (level + 1))
        (jdumpPrettyItems indent (level + 1) (x :: xs)) ++
      '\n' :: jIndent indent level ++ [']']
  | .obj [] => "\x7b\x7d".data
  | .obj (kv :: kvs) =>
    '\x7b' :: '\n' :: jIndent indent (level + 1) ++
      List.intercalate (',' :: '\n' :: jIndent indent (level + 1))
        (jdumpPrettyFields indent (level + 1) (kv :: kvs)) ++
      '\n' :: jIndent indent level ++ ['\x7d']

def jdumpPrettyItems (indent level : Nat) : List JVal → List (List Char)
  | [] => []
  | v :: vs => jdumpPretty indent level v :: jdumpPrettyItems indent level vs

def jdumpPrettyFields (indent level : Nat) : List (String × JVal) → List (List Char)
  | [] => []
  | (k, v) :: kvs =>
    (jsonStr k ++ ": ".data ++ jdumpPretty indent level v) :: jdumpPrettyFields indent level kvs

end

/-! ## Python dict operations

A Python `dict` is an insertion-ordered association list with unique keys;
assignment to a present key replaces the value in place, assignment to an
absent key appends. -/
/-- `d[k] = v` on a Python dict. -/
def pyDictSet (d : List (String × JVal)) (k : String) (v : JVal) : List (String × JVal) :=
  if d.any (fun p => p.1 = k) then
    d.map (fun p => if p.1 = k then (k, v) else p)
  else
    d ++ [(k, v)]

/-- `d.get(k)` on a Python dict. -/
def pyDictGet (d : List (String × JVal)) (k : String) : Option JVal :=
  (d.find? (fun p => p.1 = k)).map (·.2)

/-- `{**d, **pairs}`-style accumulation: assign each pair in order. -/
def pyDictMerge (d : List (String × JVal)) (pairs : List (String × JVal)) : List (String × JVal) :=
  pairs.foldl (fun acc kv => pyDictSet acc kv.1 kv.2) d

/-! ## DataExporter (`autodspy/serving/data_exporter.py`)

`export_training_data` consumes the DataFrame built by
`query_traces_with_feedback` / `_process_trace_row`: one row per trace, with
the `inputs`, `outputs` and `corrected_output` cells holding either the empty
string or a string cell. `ExpCell` models such a cell: `.empty` is `""`,
`.jobj o` is a non-empty string that `json.loads` parses to the object `o`
(the shape `_process_trace_row` produces via `json.dumps`), and `.sraw s` is
a non-empty string on which `json.loads` raises `JSONDecodeError`. -/
inductive ExpCell : Type where
  | empty : ExpCell
  | jobj : List (String × JVal) → ExpCell
  | sraw : String → ExpCell

/-- One row of the traces DataFrame (the transient `ExportRecord` of the
spec), as produced by `DataExporter._process_trace_row`. -/
structure ExpRow : Type where
  trace_id : String
  inputs : ExpCell
  outputs : ExpCell
  corrected_output : ExpCell
  rating : String

/-- The `inputs` parsing step of `export_training_data`: `json.loads` on a
non-empty string, falling back to `{"input": inputs}` on `JSONDecodeError`,
and `{}` for an empty cell. -/
def parseInputsCell : ExpCell → List (String × JVal)
  | .empty => []
  | .jobj o => o
  | .sraw s => [("input", .str s)]

/-- The output-selection step of `export_training_data`: with
`use_corrected_output`, a truthy `corrected_output` cell that parses wins;
otherwise the raw `outputs` cell is parsed, falling back to
`{"output": raw}` on `JSONDecodeError` and `{}` when empty. -/
def chosenOutputs (use_corrected_output : Bool) (row : ExpRow) : List (String × JVal) :=
  let fromCorrected : Option (List (String × JVal)) :=
    if use_corrected_output then
      match row.corrected_output with
      | .jobj o => some o
      | _ => none
    else none
  match fromCorrected with
  | some o => o
  | none =>
    match row.outputs with
    | .empty => []
    | .jobj o => o
    | .sraw s => [("output", .str s)]

/-- The flat training record `export_training_data` builds for one row:
`{**inputs, **outputs}`, then `_trace_id` and `_rating` metadata assignments
guarded by truthiness of the row's `trace_id` and `rating`. -/
def flatRecord (use_corrected_output : Bool) (row : ExpRow) : List (String × JVal) :=
  let record := pyDictMerge (pyDictMerge [] (parseInputsCell row.inputs))
    (chosenOutputs use_corrected_output row)
  let record := if row.trace_id ≠ "" then pyDictSet record "_trace_id" (.str row.trace_id)
    else record
  if row.rating ≠ "" then pyDictSet record "_rating" (.str row.rating) else record

/-- The `training_records` list `export_training_data` accumulates. -/
def trainingRecords (use_corrected_output : Bool) (rows : List ExpRow) :
    List (List (String × JVal)) :=
  rows.map (flatRecord use_corrected_output)

/-! ### `_export_csv` -/
/-- Field-name collection of `_export_csv`: the union of all record keys
(a Python `set`, modelled up to order by `dedup`), split into regular and
`_`-prefixed metadata fields, each part sorted. -/
def fieldNames (records : List (List (String × JVal))) : List String :=
  let all_fields := (records.map (fun r => r.map Prod.fst)).flatten.dedup
  pySorted (all_fields.filter (fun f => ¬ pyStartsWith f "_")) ++
    pySorted (all_fields.filter (fun f => pyStartsWith f "_"))

/-- The string the `csv` module writes for one cell value: strings verbatim,
`None` as the empty string, booleans via `str()`, and (per `_export_csv`)
dict/list values as their `json.dumps`. -/
def csvCellStr : JVal → List Char
  | .null => []
  | .bool b => if b then "True".data else "False".data
  | .num n => (toString n).data
  | .str s => s.data
  | .arr xs => jdump (.arr xs)
  | .obj kvs => jdump (.obj kvs)

/-- Python `sep.join(parts)`. -/
def joinSep (sep : List Char) : List (List Char) → List Char
  | [] => []
  | [x] => x
  | x :: y :: t => x ++ sep ++ joinSep sep (y :: t)

/-- `csv` QUOTE_MINIMAL: a field is quoted iff it contains the delimiter,
the quote character, or a line-terminator character. -/
def csvEncodeField (s : List Char) : List Char :=
  if s.any (fun c => c = ',' ∨ c = '"' ∨ c = '\r' ∨ c = '\n') then
    '"' :: s.flatMap (fun c => if c = '"' then ['"', '"'] else [c]) ++ ['"']
  else s

/-- One CSV line (excel dialect: `\r\n` line terminator). -/
def csvLine (cells : List (List Char)) : List Char :=
  joinSep [','] (cells.map csvEncodeField) ++ ['\r', '\n']

/-- `writer.writeheader()`. -/
def csvHeaderLine (fields : List String) : List Char :=
  csvLine (fields.map String.data)

/-- `writer.writerow(row)` for one record: for each field name its value
(converted by `csvCellStr`), the `restval` empty string when absent; keys
outside `fieldnames` are dropped (`extrasaction="ignore"`). -/
def csvRowLine (fields : List String) (record : List (String × JVal)) : List Char :=
  csvLine (fields.map (fun f =>
    match pyDictGet record f with
    | some v => csvCellStr v
    | none => []))

/-- `DataExporter._export_csv`. -/
def _export_csv (records : List (List (String × JVal))) : List Char :=
  if records.isEmpty then "inputs,outputs\n".data
  else
    csvHeaderLine (fieldNames records) ++
      (records.map (csvRowLine (fieldNames records))).flatten

/-- `DataExporter._export_json`: `json.dumps(records, ensure_ascii=False, indent=2)`. -/
def _export_json (records : List (List (String × JVal))) : List Char :=
  jdumpPretty 2 0 (.arr (records.map JVal.obj))

/-- The export format argument. -/
inductive ExpFormat : Type where
  | csv : ExpFormat
  | json : ExpFormat
  deriving DecidableEq

/-- `DataExporter.export_training_data`. -/
def export_training_data (rows : List ExpRow) (format : ExpFormat)
    (use_corrected_output : Bool) : List Char :=
  if rows.isEmpty then
    match format with
    | .csv => "inputs,outputs\n".data
    | .json => "[]".data
  else
    match format with
    | .csv => _export_csv (trainingRecords use_corrected_output rows)
    | .json => _export_json (trainingRecords use_corrected_output rows)

/-! ### `export_streaming` -/
/-- `split("\n")` of Python (never returns an empty list). -/
def pySplitNl : List Char → List (List Char)
  | [] => [[]]
  | c :: t =>
    if c = '\n' then [] :: pySplitNl t
    else
      match pySplitNl t with
      | [] => [[c]]
      | h :: r => (c :: h) :: r

/-- The header-stripping step of the CSV streaming branch:
`lines = chunk.split("\n")`, and when there are at least two lines, yield
`"\n".join(lines[1:])`; otherwise nothing is yielded. -/
def stripCsvHeaderChunk (chunk : List Char) : List (List Char) :=
  let lines := pySplitNl chunk
  if 1 < lines.length then [joinSep ['\n'] lines.tail] else []

/-- Python `str.strip()` restricted to the whitespace the JSON serializer
emits. -/
def pyStripWs (s : List Char) : List Char :=
  let ws := fun (c : Char) => c = ' ' ∨ c = '\n' ∨ c = '\r' ∨ c = '\t'
  (s.dropWhile ws).reverse.dropWhile ws |>.reverse

/-- The JSON streaming inner-chunk step: `json_str.strip()[1:-1].strip()`. -/
def stripJsonBrackets (chunk : List Char) : List Char :=
  pyStripWs (((pyStripWs chunk).drop 1).dropLast)

/-- `range(0, l.length, k)` chunking of `export_streaming` (the fuel is the
list length; since each step consumes `max k 1 ≥ 1` elements it never runs
out for `k ≥ 1`). -/
def chunksOfFuel (k : Nat) : Nat → List ExpRow → List (List ExpRow)
  | _, [] => []
  | 0, a :: t => [a :: t]
  | fuel + 1, a :: t => ((a :: t).take k) :: chunksOfFuel k fuel ((a :: t).drop k)

/-- The chunks `traces_df.iloc[start:start+k]` iterated by `export_streaming`. -/
def dfChunks (k : Nat) (rows : List ExpRow) : List (List ExpRow) :=
  chunksOfFuel k rows.length rows

/-- `DataExporter.export_streaming`: the finite sequence of byte chunks the
generator yields (`chunk_size = k`, assumed `≥ 1` as `range` requires a
positive step). -/
def export_streaming (rows : List ExpRow) (format : ExpFormat)
    (use_corrected_output : Bool) (k : Nat) : List (List Char) :=
  if rows.isEmpty then
    match format with
    | .csv => ["inputs,outputs\n".data]
    | .json => ["[]".data]
  else
    match format with
    | .csv =>
      match dfChunks k rows with
      | [] => []
      | c0 :: cs =>
        export_training_data c0 .csv use_corrected_output ::
          cs.flatMap (fun c =>
            stripCsvHeaderChunk (export_training_data c .csv use_corrected_output))
    | .json =>
      let inner := fun (c : List ExpRow) =>
        stripJsonBrackets (export_training_data c .json use_corrected_output)
      "[\n".data ::
        ((match dfChunks k rows with
          | [] => []
          | c0 :: cs =>
            (if inner c0 ≠ [] then [inner c0] else []) ++
              cs.flatMap (fun c => if inner c ≠ [] then [",\n".data, inner c] else [])) ++
          ["\n]".data])

/-- Concatenation of all yielded chunks (`b"".join(...)`). -/
def catChunks (chunks : List (List Char)) : List Char :=
  chunks.flatten

/-! ## ModelManager (`autodspy/serving/model_manager.py`)

Time is modelled in seconds as an integer (`datetime.now()` values and their
differences); the loaded DSPy program object is opaque and modelled as a
`Nat` handle. The MLflow artifact fetch (`_load_from_mlflow`, including the
version extracted from the URI) and the registry resolution
(`_resolve_version`) are external collaborators, passed per call as an
`Except`/`Option` outcome. -/
/-- `CachedModel` (dataclass). -/
structure CachedModel : Type where
  program : Nat
  version : String
  loaded_at : Int
  hit_count : Nat
  deriving DecidableEq, Repr

/-- `CachedModel.is_expired`: `ttl <= 0` never expires, otherwise expired
iff the elapsed time strictly exceeds `ttl`. -/
def CachedModel.is_expired (c : CachedModel) (ttl : Int) (now : Int) : Bool :=
  if ttl ≤ 0 then false
  else decide (now - c.loaded_at > ttl)

/-- `CacheStats` (dataclass). -/
structure CacheStats : Type where
  total_loads : Nat
  cache_hits : Nat
  cache_misses : Nat
  invalidations : Nat
  deriving DecidableEq, Repr

/-- `CacheStats.hit_rate`: `cache_hits / total_loads`, `0.0` when no loads. -/
def CacheStats.hit_rate (s : CacheStats) : ℚ :=
  if s.total_loads = 0 then 0
  else (s.cache_hits : ℚ) / (s.total_loads : ℚ)

/-- The mutable state of a `ModelManager`: the `_cache` dict (insertion
ordered, unique keys), the configuration flags and the counters. -/
structure MMState : Type where
  cache : List (String × CachedModel)
  cache_enabled : Bool
  cache_ttl : Int
  stats : CacheStats
  deriving DecidableEq, Repr

/-- `ModelManager.__init__`. -/
def mmInit (cache_enabled : Bool) (cache_ttl : Int) : MMState :=
  ⟨[], cache_enabled, cache_ttl, ⟨0, 0, 0, 0⟩⟩

/-- `key in self._cache` / `self._cache[key]`. -/
def mmGet (cache : List (String × CachedModel)) (key : String) : Option CachedModel :=
  (cache.find? (fun p => p.1 = key)).map (·.2)

/-- `self._cache[key] = value` (replace in place, else append). -/
def mmSet (cache : List (String × CachedModel)) (key : String) (v : CachedModel) :
    List (String × CachedModel) :=
  if cache.any (fun p => p.1 = key) then
    cache.map (fun p => if p.1 = key then (key, v) else p)
  else
    cache ++ [(key, v)]

/-- `del self._cache[key]`. -/
def mmDel (cache : List (String × CachedModel)) (key : String) :
    List (String × CachedModel) :=
  cache.filter (fun p => ¬ p.1 = key)

/-- `ModelManager._build_model_uri`: version > alias > stage > latest. -/
def _build_model_uri (name : String) (version stage al : Option String) : String :=
  match version with
  | some v => "models:/" ++ name ++ "/" ++ v
  | none =>
    match al with
    | some a => "models:/" ++ name ++ "@" ++ a
    | none =>
      match stage with
      | some s => "models:/" ++ name ++ "@" ++ s
      | none => "models:/" ++ name ++ "/latest"

/-- `ModelManager._get_cache_key`: version > alias > stage > latest
(empty-string arguments are falsy in Python, so the logical address carries
`Option String` hints with `some ""` excluded from the intended domain). -/
def _get_cache_key (name : String) (version stage al : Option String) : String :=
  match version with
  | some v => name ++ ":v" ++ v
  | none =>
    match al with
    | some a => name ++ "@" ++ a
    | none =>
      match stage with
      | some s => name ++ "@" ++ s
      | none => name ++ ":latest"

/-- The per-call collaborator outcomes of one `load_model` call: the clock
reading, the result of `_load_from_mlflow` on the built URI (program handle
and URI-extracted version, or the raised `ValueError`), and the best-effort
result of `_resolve_version` for stage/alias addressing. -/
structure LoadEnv : Type where
  now : Int
  fetch : Except String (Nat × String)
  resolved : Option String

/-- The miss path of `load_model`: count the miss, fetch from MLflow
(propagating a raised error, after the stats mutation), resolve the actual
version for stage/alias addressing, and populate the cache when enabled. -/
def loadMiss (st : MMState) (key : String) (version stage al : Option String)
    (env : LoadEnv) : MMState × Except String (Nat × String) :=
  let st := { st with stats := { st.stats with cache_misses := st.stats.cache_misses + 1 } }
  match env.fetch with
  | .error e => (st, .error e)
  | .ok (program, extracted) =>
    let actual_version :=
      if version.isNone ∧ (stage.isSome ∨ al.isSome) then
        match env.resolved with
        | some rv => rv
        | none => extracted
      else extracted
    let st :=
      if st.cache_enabled then
        { st with cache := mmSet st.cache key ⟨program, actual_version, env.now, 0⟩ }
      else st
    (st, .ok (program, actual_version))

/-- `ModelManager.load_model`: returns the post-call state together with the
`(program, actual_version)` result or the raised `ValueError`. -/
def load_model (st : MMState) (name : String) (version stage al : Option String)
    (env : LoadEnv) : MMState × Except String (Nat × String) :=
  let st1 := { st with stats := { st.stats with total_loads := st.stats.total_loads + 1 } }
  let cache_key := _get_cache_key name version stage al
  match (if st1.cache_enabled then mmGet st1.cache cache_key else none) with
  | some cached =>
    if cached.is_expired st1.cache_ttl env.now then
      loadMiss { st1 with cache := mmDel st1.cache cache_key } cache_key version stage al env
    else
      ({ st1 with
          cache := mmSet st1.cache cache_key { cached with hit_count := cached.hit_count + 1 },
          stats := { st1.stats with cache_hits := st1.stats.cache_hits + 1 } },
        .ok (cached.program, cached.version))
  | none => loadMiss st1 cache_key version stage al env

/-- `ModelManager.invalidate_cache`: removes every key starting with
`f"{name}:"` or `f"{name}@"`, bumping the invalidation counter once per
removed key; returns the new state and the removed count. -/
def invalidate_cache (st : MMState) (name : String) : MMState × Nat :=
  let keyMatch := fun (key : String) =>
    pyStartsWith key (name ++ ":") || pyStartsWith key (name ++ "@")
  let keys_to_remove := (st.cache.map Prod.fst).filter keyMatch
  ({ st with
      cache := st.cache.filter (fun p => ! keyMatch p.1),
      stats := { st.stats with
        invalidations := st.stats.invalidations + keys_to_remove.length } },
    keys_to_remove.length)

/-- `ModelManager.invalidate_all`. -/
def invalidate_all (st : MMState) : MMState × Nat :=
  ({ st with
      cache := [],
      stats := { st.stats with invalidations := st.stats.invalidations + st.cache.length } },
    st.cache.length)

/-- The reachable `ModelManager` states: any sequence of `load_model`
(succeeding or failing), `invalidate_cache` and `invalidate_all` calls from
a fresh manager (`get_cache_stats` and `get_cached_models` do not mutate). -/
inductive MMReachable : MMState → Prop where
  | init (cache_enabled : Bool) (cache_ttl : Int) :
      MMReachable (mmInit cache_enabled cache_ttl)
  | load {st : MMState} (name : String) (version stage al : Option String)
      (env : LoadEnv) : MMReachable st →
      MMReachable (load_model st name version stage al env).1
  | invalidate {st : MMState} (name : String) : MMReachable st →
      MMReachable (invalidate_cache st name).1
  | invalidateAll {st : MMState} : MMReachable st →
      MMReachable (invalidate_all st).1

/-! ## FeedbackService (`autodspy/serving/feedback.py`)

The MLflow trace store is an external collaborator: its per-call outcomes
(`client.search_traces`, `client.get_trace`, `mlflow.log_feedback`) are
passed in explicitly, `.error ()` standing for a raised exception. The
availability check `_is_available` (config flag ∧ MLflow installed ∧ service
enabled) is modelled as one boolean. -/
/-- `FeedbackRecord` (dataclass, after `__post_init__` ran on a record built
by `record_feedback`, which passes no timestamp and no feedback_id). -/
structure FeedbackRecord : Type where
  trace_id : String
  rating : String
  corrected_output : Option (List (String × JVal))
  comment : Option String
  user_id : Option String
  timestamp : String
  feedback_id : String

/-- One signal sent to the trace store by `mlflow.log_feedback`. -/
structure FBSignal : Type where
  trace_id : String
  name : String
  value : JVal

/-- The collaborator outcomes for one `record_feedback` /
`validate_trace_exists` call: availability, the uuid4 hex digest and
`datetime.now().isoformat()` read while building the record, and the
trace-store reaction to each emitted signal. -/
structure FBEnv : Type where
  available : Bool
  uuid_hex : String
  now_iso : String
  emit : FBSignal → Except Unit Unit

/-- `FeedbackRecord.__post_init__` id generation:
`f"fb-{uuid.uuid4().hex[:16]}"`. -/
def mkFeedbackId (uuid_hex : String) : String :=
  "fb-" ++ ⟨uuid_hex.data.take 16⟩

/-- `FeedbackService.record_feedback`: returns the post-call history, the
result (`.error ()` standing for the raised `ValueError` on an invalid
rating), and the list of signals successfully delivered to the trace store.
The local history append happens before any remote call; any raise from
`mlflow.log_feedback` is caught and the locally generated id returned. -/
def record_feedback (history : List FeedbackRecord) (trace_id rating : String)
    (corrected_output : Option (List (String × JVal))) (comment : Option String)
    (user_id : Option String) (env : FBEnv) :
    List FeedbackRecord × Except Unit String × List FBSignal :=
  if ¬ (rating = "thumbs_up" ∨ rating = "thumbs_down") then
    (history, .error (), [])
  else
    let record : FeedbackRecord :=
      ⟨trace_id, rating, corrected_output, comment, user_id, env.now_iso,
        mkFeedbackId env.uuid_hex⟩
    let history := history ++ [record]
    if ¬ env.available then
      (history, .ok record.feedback_id, [])
    else
      let s1 : FBSignal := ⟨trace_id, "user_rating", .bool (rating = "thumbs_up")⟩
      match env.emit s1 with
      | .error _ => (history, .ok record.feedback_id, [])
      | .ok _ =>
        let sent1 := [s1]
        let afterCorrected : Option (List FBSignal) :=
          match corrected_output with
          | some o =>
            if ¬ o.isEmpty then
              let s2 : FBSignal := ⟨trace_id, "corrected_output", .str ⟨jdump (.obj o)⟩⟩
              match env.emit s2 with
              | .error _ => none
              | .ok _ => some (sent1 ++ [s2])
            else some sent1
          | none => some sent1
        match afterCorrected with
        | none => (history, .ok record.feedback_id, sent1)
        | some sent2 =>
          match comment with
          | some c =>
            if ¬ (c = "") then
              let s3 : FBSignal := ⟨trace_id, "user_comment", .str c⟩
              match env.emit s3 with
              | .error _ => (history, .ok record.feedback_id, sent2)
              | .ok _ => (history, .ok record.feedback_id, sent2 ++ [s3])
            else (history, .ok record.feedback_id, sent2)
          | none => (history, .ok record.feedback_id, sent2)

/-- `FeedbackService.validate_trace_exists`: `search` is the
`client.search_traces` outcome (a raise, or the returned list), `get` the
`client.get_trace` outcome (a raise, or the returned value). Any raise from
the search fails open (returns `true`); a raise from the fallback
`get_trace` is swallowed and yields `false`. -/
def validate_trace_exists (available : Bool) (search : Except Unit (List Unit))
    (get : Except Unit (Option Unit)) : Bool :=
  if ¬ available then false
  else
    match search with
    | .error _ => true
    | .ok traces =>
      if ¬ traces.isEmpty then true
      else
        match get with
        | .ok (some _) => true
        | _ => false

/-! ## Feedback claims -/
/-- A lowercase hexadecimal digit (the alphabet of `uuid4().hex`). -/
def isLowerHexDigit (c : Char) : Bool :=
  (48 ≤ c.toNat ∧ c.toNat ≤ 57) ∨ (97 ≤ c.toNat ∧ c.toNat ≤ 102)

/-- The pattern `fb-[0-9a-f]{16}`. -/
def matchesFeedbackIdPattern (s : String) : Bool :=
  s.data.length = 19 ∧ s.data.take 3 = "fb-".data ∧ (s.data.drop 3).all isLowerHexDigit

/-! ## Cache key claims -/
/-- A character allowed to occur in a model name without clashing with the
cache-key separators `:` and `@`. -/
def nameCleanCh (c : Char) : Bool :=
  ¬ (c = ':' ∨ c = '@')

/-- A model name containing neither `:` nor `@`. -/
def nameClean (s : String) : Bool :=
  s.data.all nameCleanCh

/-- The effective addressing mode of a `load_model` / `_get_cache_key` call
under the version > alias > stage > latest precedence. -/
inductive AddrMode : Type where
  | ver : String → AddrMode
  | ali : String → AddrMode
  | stg : String → AddrMode
  | latest : AddrMode
  deriving DecidableEq, Repr

/-- Precedence resolution of the three optional hints. -/
def effMode (version stage al : Option String) : AddrMode :=
  match version with
  | some v => .ver v
  | none =>
    match al with
    | some a => .ali a
    | none =>
      match stage with
      | some s => .stg s
      | none => .latest

/-- The cache key as a function of the effective logical address. -/
def keyOfMode (name : String) (m : AddrMode) : String :=
  match m with
  | .ver v => name ++ ":v" ++ v
  | .ali a => name ++ "@" ++ a
  | .stg s => name ++ "@" ++ s
  | .latest => name ++ ":latest"

/-! ## Invalidation claims -/
/-- The key predicate `invalidate_cache name` filters on. -/
def invKeyMatch (name key : String) : Bool :=
  pyStartsWith key (name ++ ":") || pyStartsWith key (name ++ "@")

/-! ## C5: hit/miss accounting over a call sequence -/
/-- The arguments and collaborator outcomes of one `load_model` call. -/
structure LoadCall : Type where
  name : String
  version : Option String
  stage : Option String
  al : Option String
  env : LoadEnv

/-- A sequence of `load_model` calls, threading the manager state. -/
def loadSeq (st : MMState) : List LoadCall → MMState
  | [] => st
  | cl :: cls => loadSeq (load_model st cl.name cl.version cl.stage cl.al cl.env).1 cls

/-! ## Theorems -/
/-- C7: for every rating outside `{thumbs_up, thumbs_down}` and every current
history, `record_feedback` raises `ValueError` (`InvalidArgument`), appends
nothing to the local history and emits no signal to the trace store. -/
theorem c7_invalid_rating_rejected (history : List FeedbackRecord)
    (trace_id rating : String) (corrected_output : Option (List (String × JVal)))
    (comment : Option String) (user_id : Option String) (env : FBEnv)
    (h : ¬ (rating = "thumbs_up" ∨ rating = "thumbs_down")) :
    record_feedback history trace_id rating corrected_output comment user_id env =
      (history, .error (), []) := by
  simp only [record_feedback, if_pos h]

/-- C7 witness: `rating = "great"` is rejected without touching the history. -/
theorem c7_invalid_rating_rejected_witness :
    record_feedback [] "tr-1" "great" none (some "nice") none
        ⟨true, "0123456789abcdef0123456789abcdef", "2026-01-01T00:00:00", fun _ => .ok ()⟩ =
      ([], .error (), []) :=
  c7_invalid_rating_rejected [] "tr-1" "great" none (some "nice") none _ (by decide)

/-- C8: with a valid rating, even if every trace-store call raises,
`record_feedback` returns the locally generated feedback id, that id matches
`fb-[0-9a-f]{16}`, and the corresponding record (same id, trace and rating)
is appended to the local history. -/
theorem c8_feedback_resilience (history : List FeedbackRecord)
    (trace_id rating : String) (corrected_output : Option (List (String × JVal)))
    (comment : Option String) (user_id : Option String) (env : FBEnv)
    (hr : rating = "thumbs_up" ∨ rating = "thumbs_down")
    (hlen : env.uuid_hex.data.length = 32)
    (hhex : env.uuid_hex.data.all isLowerHexDigit = true)
    (hfail : ∀ s, env.emit s = .error ()) :
    (record_feedback history trace_id rating corrected_output comment user_id env).2.1 =
        .ok (mkFeedbackId env.uuid_hex) ∧
      matchesFeedbackIdPattern (mkFeedbackId env.uuid_hex) = true ∧
      (record_feedback history trace_id rating corrected_output comment user_id env).1 =
        history ++ [⟨trace_id, rating, corrected_output, comment, user_id, env.now_iso,
          mkFeedbackId env.uuid_hex⟩] := by
  have hsub : ∀ c ∈ env.uuid_hex.data.take 16, isLowerHexDigit c = true := fun c hc =>
    List.all_eq_true.mp hhex c (List.take_subset _ _ hc)
  have hdata : (mkFeedbackId env.uuid_hex).data =
      'f' :: 'b' :: '-' :: env.uuid_hex.data.take 16 := rfl
  have hpat : matchesFeedbackIdPattern (mkFeedbackId env.uuid_hex) = true := by
    simp only [matchesFeedbackIdPattern, hdata, decide_eq_true_eq]
    refine ⟨by simp [List.length_take, hlen], rfl, ?_⟩
    show (env.uuid_hex.data.take 16).all isLowerHexDigit = true
    exact List.all_eq_true.mpr hsub
  refine ⟨?_, hpat, ?_⟩ <;>
  · rcases hr with h | h <;> subst h <;>
      rcases Decidable.em (env.available = true) with ha | ha <;>
      [skip; (rw [Bool.not_eq_true] at ha); skip; (rw [Bool.not_eq_true] at ha)] <;>
      simp [record_feedback, ha, hfail]

/-- C8 witness at a concrete call with an always-raising trace store. -/
theorem c8_feedback_resilience_witness :
    (record_feedback [] "tr-9" "thumbs_down" (some [("answer", JVal.str "42")]) (some "typo")
          (some "u1") ⟨true, "0123456789abcdef0123456789abcdef", "2026-01-02T03:04:05",
            fun _ => .error ()⟩).2.1 =
        .ok (mkFeedbackId "0123456789abcdef0123456789abcdef") ∧
      matchesFeedbackIdPattern (mkFeedbackId "0123456789abcdef0123456789abcdef") = true ∧
      (record_feedback [] "tr-9" "thumbs_down" (some [("answer", JVal.str "42")]) (some "typo")
          (some "u1") ⟨true, "0123456789abcdef0123456789abcdef", "2026-01-02T03:04:05",
            fun _ => .error ()⟩).1 =
        [] ++ [⟨"tr-9", "thumbs_down", some [("answer", JVal.str "42")], some "typo",
          some "u1", "2026-01-02T03:04:05", mkFeedbackId "0123456789abcdef0123456789abcdef"⟩] :=
  c8_feedback_resilience [] "tr-9" "thumbs_down" (some [("answer", JVal.str "42")])
    (some "typo") (some "u1") _ (by decide) (by decide) (by decide) (fun s => rfl)

/-- C9: with the service available, a raise from the trace-store search query
makes `validate_trace_exists` fail open: it returns `true` (and, being total,
never propagates an error). -/
theorem c9_validate_fails_open (available : Bool) (e : Unit)
    (get : Except Unit (Option Unit)) (h : available = true) :
    validate_trace_exists available (.error e) get = true := by
  subst h
  rfl

/-- C9 witness: concrete failing search. -/
theorem c9_validate_fails_open_witness :
    validate_trace_exists true (.error ()) (.ok none) = true :=
  c9_validate_fails_open true () (.ok none) rfl

/-- Splitting at the first separator is unambiguous: if two
separator-free lists followed by a separator character agree, the parts
agree. -/
theorem sepSplit {x y t1 t2 : List Char} {c d : Char}
    (hx : ∀ a ∈ x, nameCleanCh a = true) (hy : ∀ a ∈ y, nameCleanCh a = true)
    (hc : nameCleanCh c = false) (hd : nameCleanCh d = false)
    (h : x ++ c :: t1 = y ++ d :: t2) : x = y ∧ c = d ∧ t1 = t2 := by
  induction x generalizing y with
  | nil =>
    cases y with
    | nil => simpa using h
    | cons b ys =>
      simp only [List.nil_append, List.cons_append, List.cons.injEq] at h
      exact absurd (hy b (by simp)) (by rw [← h.1]; simp [hc])
  | cons a xs ih =>
    cases y with
    | nil =>
      simp only [List.cons_append, List.nil_append, List.cons.injEq] at h
      exact absurd (hx a (by simp)) (by rw [h.1]; simp [hd])
    | cons b ys =>
      simp only [List.cons_append, List.cons.injEq] at h
      obtain ⟨rfl, h2⟩ := h
      obtain ⟨h3, h4, h5⟩ := ih (fun u hu => hx u (by simp [hu]))
        (fun u hu => hy u (by simp [hu])) h2
      exact ⟨by rw [h3], h4, h5⟩

/-- Strings with equal character data are equal. -/
theorem strDataInj {a b : String} (h : a.data = b.data) : a = b := by
  cases a
  cases b
  exact congrArg String.mk h

/-- `_get_cache_key` factors through the effective address. -/
theorem _get_cache_key_eq_keyOfMode (name : String) (version stage al : Option String) :
    _get_cache_key name version stage al = keyOfMode name (effMode version stage al) := by
  cases version <;> cases al <;> cases stage <;> rfl

/-- Character data of a cache key: the separator-free name, one separator
character, and the mode-specific remainder. -/
theorem keyOfMode_data (name : String) (m : AddrMode) :
    keyOfMode name m =
      match m with
      | .ver v => ⟨name.data ++ ':' :: 'v' :: v.data⟩
      | .ali a => ⟨name.data ++ '@' :: a.data⟩
      | .stg s => ⟨name.data ++ '@' :: s.data⟩
      | .latest => ⟨name.data ++ ':' :: "latest".data⟩ := by
  cases m <;>
    refine strDataInj ?_ <;>
    simp [keyOfMode, String.data_append]

/-- C3 counterexample: the claim's injectivity across addressing modes fails
on the code: the distinct logical addresses (name `"m"`, stage
`"Production"`) and (name `"m"`, alias `"Production"`) map to the same cache
key `"m@Production"`. -/
theorem c3_cache_key_counterexample :
    _get_cache_key "m" none (some "Production") none =
        _get_cache_key "m" none none (some "Production") ∧
      ((none : Option String), some "Production", (none : Option String)) ≠
        ((none : Option String), (none : Option String), some "Production") := by
  exact ⟨rfl, by decide⟩

/-- C3 amended: key derivation is a pure function of the logical address
(definitionally: `_get_cache_key` factors through `effMode`, see
`_get_cache_key_eq_keyOfMode`), and for model names free of `:` and `@` it
is injective on effective addresses **except** that an alias and a stage
with the same value collide on the same key (`name@value`); in particular a
version-addressed key never coincides with an alias, stage or latest key of
the same model. -/
theorem c3_cache_key_amended (n1 n2 : String) (m1 m2 : AddrMode)
    (h1 : nameClean n1 = true) (h2 : nameClean n2 = true)
    (heq : keyOfMode n1 m1 = keyOfMode n2 m2) :
    n1 = n2 ∧ (m1 = m2 ∨
      ∃ x, (m1 = .ali x ∧ m2 = .stg x) ∨ (m1 = .stg x ∧ m2 = .ali x)) := by
  have h1' : ∀ a ∈ n1.data, nameCleanCh a = true := List.all_eq_true.mp h1
  have h2' : ∀ a ∈ n2.data, nameCleanCh a = true := List.all_eq_true.mp h2
  have dv : (":v" : String).data = [':', 'v'] := rfl
  have da : ("@" : String).data = ['@'] := rfl
  have dl : (":latest" : String).data = [':', 'l', 'a', 't', 'e', 's', 't'] := rfl
  have e := congrArg String.data heq
  cases m1 <;> cases m2 <;>
    simp only [keyOfMode, String.data_append, dv, da, dl, List.append_assoc,
      List.cons_append, List.nil_append] at e <;>
    obtain ⟨hn, hs, ht⟩ := sepSplit h1' h2' (by decide) (by decide) e
  case ver.ver v1 v2 =>
    simp only [List.cons.injEq, true_and] at ht
    exact ⟨strDataInj hn, .inl (by rw [strDataInj ht])⟩
  case ver.ali v1 a2 => exact absurd hs (by decide)
  case ver.stg v1 s2 => exact absurd hs (by decide)
  case ver.latest v1 => simp at ht
  case ali.ver a1 v2 => exact absurd hs (by decide)
  case ali.ali a1 a2 => exact ⟨strDataInj hn, .inl (by rw [strDataInj ht])⟩
  case ali.stg a1 s2 =>
    exact ⟨strDataInj hn, .inr ⟨a1, .inl ⟨rfl, by rw [strDataInj ht]⟩⟩⟩
  case ali.latest a1 => exact absurd hs (by decide)
  case stg.ver s1 v2 => exact absurd hs (by decide)
  case stg.ali s1 a2 =>
    exact ⟨strDataInj hn, .inr ⟨s1, .inr ⟨rfl, by rw [strDataInj ht]⟩⟩⟩
  case stg.stg s1 s2 => exact ⟨strDataInj hn, .inl (by rw [strDataInj ht])⟩
  case stg.latest s1 => exact absurd hs (by decide)
  case latest.ver v2 => simp at ht
  case latest.ali a2 => exact absurd hs (by decide)
  case latest.stg s2 => exact absurd hs (by decide)
  case latest.latest => exact ⟨strDataInj hn, .inl rfl⟩

/-- C3 amended witness: the characterization applied to the version-addressed
key of `"joke-generator"`. -/
theorem c3_cache_key_amended_witness :
    nameClean "joke-generator" = true ∧
      ("joke-generator" : String) = "joke-generator" ∧
      (AddrMode.ver "3" = AddrMode.ver "3" ∨
        ∃ x, (AddrMode.ver "3" = .ali x ∧ AddrMode.ver "3" = .stg x) ∨
          (AddrMode.ver "3" = .stg x ∧ AddrMode.ver "3" = .ali x)) :=
  ⟨by decide,
    c3_cache_key_amended "joke-generator" "joke-generator" (.ver "3") (.ver "3")
      (by decide) (by decide) rfl⟩

/-- `invalidate_cache` in terms of `invKeyMatch`. -/
theorem invalidate_cache_eq (st : MMState) (name : String) :
    invalidate_cache st name =
      ({ st with
          cache := st.cache.filter (fun p => ! invKeyMatch name p.1),
          stats := { st.stats with
            invalidations := st.stats.invalidations +
              ((st.cache.map Prod.fst).filter (invKeyMatch name)).length } },
        ((st.cache.map Prod.fst).filter (invKeyMatch name)).length) := rfl

/-- Lookup of a filtered-out key yields nothing. -/
theorem mmGet_filter_out (l : List (String × CachedModel)) (f : String → Bool)
    (q : String) (hq : f q = true) :
    mmGet (l.filter (fun p => ! f p.1)) q = none := by
  induction l with
  | nil => rfl
  | cons p t ih =>
    by_cases hp : f p.1 = true
    · simpa [List.filter_cons, hp] using ih
    · rw [Bool.not_eq_true] at hp
      have hpq : ¬ (p.1 = q) := fun h => by rw [h, hq] at hp; cases hp
      simpa [List.filter_cons, hp, mmGet, List.find?_cons, hpq] using ih

/-- Lookup of a key the filter keeps is unchanged. -/
theorem mmGet_filter_keep (l : List (String × CachedModel)) (f : String → Bool)
    (q : String) (hq : f q = false) :
    mmGet (l.filter (fun p => ! f p.1)) q = mmGet l q := by
  induction l with
  | nil => rfl
  | cons p t ih =>
    by_cases hpq : p.1 = q
    · have hp : f p.1 = false := by rw [hpq, hq]
      simp [List.filter_cons, hp, hq, mmGet, List.find?_cons, hpq]
    · by_cases hp : f p.1 = true
      · simpa [List.filter_cons, hp, mmGet, List.find?_cons, hpq] using ih
      · rw [Bool.not_eq_true] at hp
        simpa [List.filter_cons, hp, mmGet, List.find?_cons, hpq] using ih

/-- The removed and surviving entries partition the cache. -/
theorem invFilter_length (l : List (String × CachedModel)) (f : String → Bool) :
    ((l.map Prod.fst).filter f).length + (l.filter (fun p => ! f p.1)).length = l.length := by
  induction l with
  | nil => rfl
  | cons p t ih =>
    by_cases hp : f p.1 = true
    · simp only [List.map_cons, List.filter_cons, hp, Bool.not_true, List.length_cons,
        if_true, if_false, Bool.false_eq_true, ite_false, ite_true]
      omega
    · rw [Bool.not_eq_true] at hp
      simp only [List.map_cons, List.filter_cons, hp, Bool.not_false, List.length_cons,
        Bool.false_eq_true, ite_false, ite_true]
      omega

/-- Splitting at the first separator also works against a mere prefix. -/
theorem sepPrefixSplit {x y t : List Char} {c d : Char}
    (hx : ∀ a ∈ x, nameCleanCh a = true) (hy : ∀ a ∈ y, nameCleanCh a = true)
    (hc : nameCleanCh c = false) (hd : nameCleanCh d = false)
    (h : (x ++ [c]) <+: (y ++ d :: t)) : x = y ∧ c = d := by
  obtain ⟨r, hr⟩ := h
  rw [List.append_assoc, List.singleton_append] at hr
  obtain ⟨h1, h2, _⟩ := sepSplit hx hy hc hd hr
  exact ⟨h1, h2⟩

/-- Every key derived from `name` matches `invKeyMatch name`. -/
theorem invKeyMatch_self (a : String) (v s al : Option String) :
    invKeyMatch a (_get_cache_key a v s al) = true := by
  have hpre : ∀ (sep : Char) (rest : List Char),
      (a.data ++ [sep]).isPrefixOf (a.data ++ sep :: rest) = true := fun sep rest =>
    List.isPrefixOf_iff_prefix.mpr
      ((List.prefix_append_right_inj a.data).mpr ⟨rest, rfl⟩)
  rw [_get_cache_key_eq_keyOfMode]
  cases effMode v s al <;>
    simp only [keyOfMode, invKeyMatch, pyStartsWith, String.data_append,
      List.append_assoc, List.cons_append, List.nil_append, Bool.or_eq_true] <;>
    [left; right; right; left] <;>
    first
    | exact hpre ':' _
    | exact hpre '@' _

/-- For separator-free names, no key derived from a different name matches
`invKeyMatch name`. -/
theorem invKeyMatch_other (a b : String) (ha : nameClean a = true)
    (hb : nameClean b = true) (hne : b ≠ a) (v s al : Option String) :
    invKeyMatch a (_get_cache_key b v s al) = false := by
  have ha' : ∀ u ∈ a.data, nameCleanCh u = true := List.all_eq_true.mp ha
  have hb' : ∀ u ∈ b.data, nameCleanCh u = true := List.all_eq_true.mp hb
  have hada : (a ++ ":").data = a.data ++ [':'] := by
    rw [String.data_append]
  have hadb : (a ++ "@").data = a.data ++ ['@'] := by
    rw [String.data_append]
  have main : ∀ (sep1 sep2 : Char) (rest : List Char), nameCleanCh sep1 = false →
      nameCleanCh sep2 = false →
      (a.data ++ [sep1]).isPrefixOf (b.data ++ sep2 :: rest) = false := by
    intro sep1 sep2 rest hs1 hs2
    rw [Bool.eq_false_iff]
    intro hpre
    obtain ⟨hab, _⟩ := sepPrefixSplit ha' hb' hs1 hs2 (List.isPrefixOf_iff_prefix.mp hpre)
    exact hne (strDataInj hab.symm)
  rw [_get_cache_key_eq_keyOfMode]
  cases effMode v s al <;>
    simp only [keyOfMode, invKeyMatch, pyStartsWith, String.data_append, hada, hadb,
      List.append_assoc, List.cons_append, List.nil_append, Bool.or_eq_false_iff] <;>
    constructor <;>
    first
    | exact main ':' ':' _ (by decide) (by decide)
    | exact main ':' '@' _ (by decide) (by decide)
    | exact main '@' ':' _ (by decide) (by decide)
    | exact main '@' '@' _ (by decide) (by decide)

/-- C2 counterexample: with model names allowed to contain the separator
characters, `invalidate_cache "m"` also removes the entry of the distinct
model `"m:x"` (its latest-key `"m:x:latest"` starts with `"m:"`), so the
frame condition of the claim fails. -/
theorem c2_invalidate_counterexample :
    (invalidate_cache
        ⟨[(_get_cache_key "m" (some "1") none none, ⟨1, "1", 0, 0⟩),
          (_get_cache_key "m:x" none none none, ⟨2, "1", 0, 0⟩)],
          true, 3600, ⟨2, 0, 2, 0⟩⟩ "m").2 = 2 ∧
      mmGet (invalidate_cache
          ⟨[(_get_cache_key "m" (some "1") none none, ⟨1, "1", 0, 0⟩),
            (_get_cache_key "m:x" none none none, ⟨2, "1", 0, 0⟩)],
            true, 3600, ⟨2, 0, 2, 0⟩⟩ "m").1.cache
        (_get_cache_key "m:x" none none none) = none ∧
      ("m:x" : String) ≠ "m" := by
  refine ⟨rfl, rfl, by decide⟩

/-- C2 amended: for model names free of `:` and `@` (so that no name's key
namespace is a prefix of another's), `invalidate_cache a` removes every
entry keyed from `a` under any addressing mode, leaves the entries of every
other separator-free model name untouched, removes exactly the matched
entries (removed + remaining = previous size), adds the removed count to the
invalidation counter and returns it, and leaves `total_loads`, `cache_hits`
and `cache_misses` unchanged. -/
theorem c2_invalidate_amended (st : MMState) (a : String) (ha : nameClean a = true) :
    (∀ v s al, mmGet (invalidate_cache st a).1.cache (_get_cache_key a v s al) = none) ∧
      (∀ b, nameClean b = true → b ≠ a → ∀ v s al,
        mmGet (invalidate_cache st a).1.cache (_get_cache_key b v s al) =
          mmGet st.cache (_get_cache_key b v s al)) ∧
      (invalidate_cache st a).2 + (invalidate_cache st a).1.cache.length = st.cache.length ∧
      (invalidate_cache st a).1.stats.invalidations =
        st.stats.invalidations + (invalidate_cache st a).2 ∧
      (invalidate_cache st a).1.stats.total_loads = st.stats.total_loads ∧
      (invalidate_cache st a).1.stats.cache_hits = st.stats.cache_hits ∧
      (invalidate_cache st a).1.stats.cache_misses = st.stats.cache_misses := by
  rw [invalidate_cache_eq]
  refine ⟨?_, ?_, ?_, rfl, rfl, rfl, rfl⟩
  · intro v s al
    exact mmGet_filter_out st.cache (invKeyMatch a) _ (invKeyMatch_self a v s al)
  · intro b hb hne v s al
    exact mmGet_filter_keep st.cache (invKeyMatch a) _ (invKeyMatch_other a b ha hb hne v s al)
  · exact invFilter_length st.cache (invKeyMatch a)

/-- C2 amended witness: a concrete two-model cache; invalidating `"m"`
removes exactly its entry and leaves model `"n"` alone. -/
theorem c2_invalidate_amended_witness :
    nameClean "m" = true ∧
      (∀ v s al, mmGet (invalidate_cache
          ⟨[("m:v1", ⟨1, "1", 0, 0⟩), ("n:v2", ⟨2, "2", 0, 0⟩)], true, 3600,
            ⟨2, 0, 2, 0⟩⟩ "m").1.cache (_get_cache_key "m" v s al) = none) ∧
      mmGet (invalidate_cache
          ⟨[("m:v1", ⟨1, "1", 0, 0⟩), ("n:v2", ⟨2, "2", 0, 0⟩)], true, 3600,
            ⟨2, 0, 2, 0⟩⟩ "m").1.cache (_get_cache_key "n" (some "2") none none) =
        mmGet [("m:v1", ⟨1, "1", 0, 0⟩), ("n:v2", ⟨2, "2", 0, 0⟩)]
          (_get_cache_key "n" (some "2") none none) ∧
      (invalidate_cache
          ⟨[("m:v1", ⟨1, "1", 0, 0⟩), ("n:v2", ⟨2, "2", 0, 0⟩)], true, 3600,
            ⟨2, 0, 2, 0⟩⟩ "m").2 = 1 := by
  have h := c2_invalidate_amended
    ⟨[("m:v1", ⟨1, "1", 0, 0⟩), ("n:v2", ⟨2, "2", 0, 0⟩)], true, 3600, ⟨2, 0, 2, 0⟩⟩
    "m" (by decide)
  exact ⟨by decide, h.1, h.2.1 "n" (by decide) (by decide) (some "2") none none, by decide⟩

/-! ## `load_model` step lemmas -/
/-- Setting a key makes it present with the new value. -/
theorem mmGet_mmSet_self (l : List (String × CachedModel)) (k : String) (v : CachedModel) :
    mmGet (mmSet l k v) k = some v := by
  induction l with
  | nil => simp [mmSet, mmGet]
  | cons p t ih =>
    by_cases hp : p.1 = k
    · simp [mmSet, List.any_cons, hp, mmGet, List.find?_cons]
    · by_cases hany : t.any (fun p => p.1 = k) = true
      · simp only [mmSet, hany, if_true] at ih
        simpa [mmSet, List.any_cons, hp, hany, mmGet, List.find?_cons] using ih
      · rw [Bool.not_eq_true] at hany
        simp only [mmSet, hany, Bool.false_eq_true, if_false] at ih
        simpa [mmSet, List.any_cons, hp, hany, mmGet, List.find?_cons] using ih

/-- Deleting a key removes it. -/
theorem mmGet_mmDel_self (l : List (String × CachedModel)) (k : String) :
    mmGet (mmDel l k) k = none := by
  induction l with
  | nil => rfl
  | cons p t ih =>
    by_cases hp : p.1 = k
    · simpa [mmDel, List.filter_cons, hp, mmGet] using ih
    · simpa [mmDel, List.filter_cons, hp, mmGet, List.find?_cons] using ih

/-- An unexpired cache hit: bookkeeping of `load_model` on the hit branch. -/
theorem load_model_hit (st : MMState) (name : String) (version stage al : Option String)
    (env : LoadEnv) (c : CachedModel) (he : st.cache_enabled = true)
    (hc : mmGet st.cache (_get_cache_key name version stage al) = some c)
    (hexp : c.is_expired st.cache_ttl env.now = false) :
    load_model st name version stage al env =
      ({ st with
          cache := mmSet st.cache (_get_cache_key name version stage al)
            { c with hit_count := c.hit_count + 1 },
          stats := { st.stats with
            total_loads := st.stats.total_loads + 1,
            cache_hits := st.stats.cache_hits + 1 } },
        .ok (c.program, c.version)) := by
  unfold load_model
  simp only [he, if_true, hc, hexp, Bool.false_eq_true, if_false]

/-- A miss because the key is absent (or caching is disabled). -/
theorem load_model_absent (st : MMState) (name : String) (version stage al : Option String)
    (env : LoadEnv)
    (h : (if st.cache_enabled then mmGet st.cache (_get_cache_key name version stage al)
        else none) = none) :
    load_model st name version stage al env =
      loadMiss { st with stats := { st.stats with total_loads := st.stats.total_loads + 1 } }
        (_get_cache_key name version stage al) version stage al env := by
  unfold load_model
  simp only [h]

/-- A miss because the entry expired: it is evicted first, then reloaded. -/
theorem load_model_expired (st : MMState) (name : String) (version stage al : Option String)
    (env : LoadEnv) (c : CachedModel) (he : st.cache_enabled = true)
    (hc : mmGet st.cache (_get_cache_key name version stage al) = some c)
    (hexp : c.is_expired st.cache_ttl env.now = true) :
    load_model st name version stage al env =
      loadMiss { st with
          cache := mmDel st.cache (_get_cache_key name version stage al),
          stats := { st.stats with total_loads := st.stats.total_loads + 1 } }
        (_get_cache_key name version stage al) version stage al env := by
  unfold load_model
  simp only [he, if_true, hc, hexp]

/-- The miss path increments exactly the miss counter. -/
theorem loadMiss_stats (s : MMState) (key : String) (version stage al : Option String)
    (env : LoadEnv) :
    (loadMiss s key version stage al env).1.stats =
      { s.stats with cache_misses := s.stats.cache_misses + 1 } := by
  unfold loadMiss
  rcases env.fetch with e | ⟨p, ver⟩
  · rfl
  · simp only
    split <;> rfl

/-- The miss path keeps the configuration flags. -/
theorem loadMiss_flags (s : MMState) (key : String) (version stage al : Option String)
    (env : LoadEnv) :
    (loadMiss s key version stage al env).1.cache_enabled = s.cache_enabled ∧
      (loadMiss s key version stage al env).1.cache_ttl = s.cache_ttl := by
  unfold loadMiss
  rcases env.fetch with e | ⟨p, ver⟩
  · exact ⟨rfl, rfl⟩
  · simp only
    constructor <;> (split <;> rfl)

/-- C4: for a cached entry under the call's key, with caching enabled:
within the TTL window (`now - loaded_at ≤ ttl`, `ttl > 0`) the call is a hit
that returns the cached program and version, counts a hit (not a miss) and
bumps the entry's `hit_count`; past the window (`now - loaded_at > ttl`) the
call counts a miss, evicts the expired entry first (so on a fetch failure
the key is gone) and reloads (on fetch success the key holds a fresh entry
loaded at `now`); and with `ttl ≤ 0` the entry never expires — any elapsed
time gives the same hit behavior. -/
theorem c4_ttl_correctness (st : MMState) (name : String)
    (version stage al : Option String) (env : LoadEnv) (c : CachedModel)
    (he : st.cache_enabled = true)
    (hc : mmGet st.cache (_get_cache_key name version stage al) = some c) :
    ((0 < st.cache_ttl ∧ env.now - c.loaded_at ≤ st.cache_ttl) ∨ st.cache_ttl ≤ 0 →
      (load_model st name version stage al env).2 = .ok (c.program, c.version) ∧
        (load_model st name version stage al env).1.stats.cache_hits =
          st.stats.cache_hits + 1 ∧
        (load_model st name version stage al env).1.stats.cache_misses =
          st.stats.cache_misses ∧
        mmGet (load_model st name version stage al env).1.cache
            (_get_cache_key name version stage al) =
          some { c with hit_count := c.hit_count + 1 }) ∧
      (0 < st.cache_ttl ∧ st.cache_ttl < env.now - c.loaded_at →
        (load_model st name version stage al env).1.stats.cache_misses =
          st.stats.cache_misses + 1 ∧
          (load_model st name version stage al env).1.stats.cache_hits =
            st.stats.cache_hits ∧
          (∀ e, env.fetch = .error e →
            mmGet (load_model st name version stage al env).1.cache
              (_get_cache_key name version stage al) = none) ∧
          (∀ p ver, env.fetch = .ok (p, ver) →
            ∃ cm, mmGet (load_model st name version stage al env).1.cache
                (_get_cache_key name version stage al) = some cm ∧
              cm.loaded_at = env.now ∧ cm.program = p)) := by
  constructor
  · intro h
    have hexp : c.is_expired st.cache_ttl env.now = false := by
      rcases h with ⟨hpos, hle⟩ | hnp
      · simp [CachedModel.is_expired, not_le.mpr hpos, not_lt.mpr hle]
      · simp [CachedModel.is_expired, hnp]
    rw [load_model_hit st name version stage al env c he hc hexp]
    exact ⟨rfl, rfl, rfl, mmGet_mmSet_self _ _ _⟩
  · rintro ⟨hpos, hgt⟩
    have hexp : c.is_expired st.cache_ttl env.now = true := by
      simp [CachedModel.is_expired, not_le.mpr hpos, hgt]
    rw [load_model_expired st name version stage al env c he hc hexp]
    refine ⟨by rw [loadMiss_stats], by rw [loadMiss_stats], ?_, ?_⟩
    · intro e hfe
      unfold loadMiss
      rw [hfe]
      exact mmGet_mmDel_self st.cache _
    · intro p ver hfo
      unfold loadMiss
      rw [hfo]
      simp only [he, if_true]
      exact ⟨_, mmGet_mmSet_self _ _ _, rfl, rfl⟩

/-- C4 witness: one entry loaded at time 0 with `ttl = 10`: a hit at `now = 10`
(boundary, still within the window). -/
theorem c4_ttl_correctness_witness :
    ((0 < (⟨[("m:v1", ⟨7, "1", 0, 0⟩)], true, 10, ⟨1, 0, 1, 0⟩⟩ : MMState).cache_ttl ∧
        (10 : Int) - 0 ≤ 10) ∨ (10 : Int) ≤ 0 →
      (load_model ⟨[("m:v1", ⟨7, "1", 0, 0⟩)], true, 10, ⟨1, 0, 1, 0⟩⟩ "m" (some "1") none none
          ⟨10, .ok (9, "1"), none⟩).2 = .ok (7, "1") ∧
        (load_model ⟨[("m:v1", ⟨7, "1", 0, 0⟩)], true, 10, ⟨1, 0, 1, 0⟩⟩ "m" (some "1") none none
            ⟨10, .ok (9, "1"), none⟩).1.stats.cache_hits = 0 + 1 ∧
        (load_model ⟨[("m:v1", ⟨7, "1", 0, 0⟩)], true, 10, ⟨1, 0, 1, 0⟩⟩ "m" (some "1") none none
            ⟨10, .ok (9, "1"), none⟩).1.stats.cache_misses = 1 ∧
        mmGet (load_model ⟨[("m:v1", ⟨7, "1", 0, 0⟩)], true, 10, ⟨1, 0, 1, 0⟩⟩ "m" (some "1")
              none none ⟨10, .ok (9, "1"), none⟩).1.cache
            (_get_cache_key "m" (some "1") none none) =
          some ⟨7, "1", 0, 0 + 1⟩) ∧
      (0 < (10 : Int) ∧ (10 : Int) < (10 : Int) - 0 →
        (load_model ⟨[("m:v1", ⟨7, "1", 0, 0⟩)], true, 10, ⟨1, 0, 1, 0⟩⟩ "m" (some "1") none none
            ⟨10, .ok (9, "1"), none⟩).1.stats.cache_misses = 1 + 1 ∧
          (load_model ⟨[("m:v1", ⟨7, "1", 0, 0⟩)], true, 10, ⟨1, 0, 1, 0⟩⟩ "m" (some "1") none
              none ⟨10, .ok (9, "1"), none⟩).1.stats.cache_hits = 0 ∧
          (∀ e, (⟨10, .ok (9, "1"), none⟩ : LoadEnv).fetch = .error e →
            mmGet (load_model ⟨[("m:v1", ⟨7, "1", 0, 0⟩)], true, 10, ⟨1, 0, 1, 0⟩⟩ "m" (some "1")
                none none ⟨10, .ok (9, "1"), none⟩).1.cache
              (_get_cache_key "m" (some "1") none none) = none) ∧
          (∀ p ver, (⟨10, .ok (9, "1"), none⟩ : LoadEnv).fetch = .ok (p, ver) →
            ∃ cm, mmGet (load_model ⟨[("m:v1", ⟨7, "1", 0, 0⟩)], true, 10, ⟨1, 0, 1, 0⟩⟩ "m"
                  (some "1") none none ⟨10, .ok (9, "1"), none⟩).1.cache
                (_get_cache_key "m" (some "1") none none) = some cm ∧
              cm.loaded_at = 10 ∧ cm.program = p)) :=
  c4_ttl_correctness ⟨[("m:v1", ⟨7, "1", 0, 0⟩)], true, 10, ⟨1, 0, 1, 0⟩⟩ "m" (some "1")
    none none ⟨10, .ok (9, "1"), none⟩ ⟨7, "1", 0, 0⟩ rfl rfl

/-- Expiry only looks at `loaded_at`, not at the hit counter. -/
theorem is_expired_hit_count (c : CachedModel) (h : Nat) (ttl now : Int) :
    CachedModel.is_expired { c with hit_count := h } ttl now =
      c.is_expired ttl now := rfl

/-- A run of same-key calls against a live entry is all hits: each call adds
one to `total_loads` and `cache_hits`, leaves `cache_misses` and
`invalidations` alone, and only bumps the entry's `hit_count`. -/
theorem loadSeq_all_hits (calls : List LoadCall) (st : MMState) (k : String)
    (c : CachedModel) (he : st.cache_enabled = true) (hc : mmGet st.cache k = some c)
    (hkeys : ∀ cl ∈ calls, _get_cache_key cl.name cl.version cl.stage cl.al = k)
    (hnoexp : ∀ cl ∈ calls, st.cache_ttl ≤ 0 ∨ cl.env.now - c.loaded_at ≤ st.cache_ttl) :
    (loadSeq st calls).stats.total_loads = st.stats.total_loads + calls.length ∧
      (loadSeq st calls).stats.cache_hits = st.stats.cache_hits + calls.length ∧
      (loadSeq st calls).stats.cache_misses = st.stats.cache_misses ∧
      (loadSeq st calls).stats.invalidations = st.stats.invalidations ∧
      mmGet (loadSeq st calls).cache k =
        some ⟨c.program, c.version, c.loaded_at, c.hit_count + calls.length⟩ := by
  induction calls generalizing st c with
  | nil =>
    obtain ⟨cp, cv, cl, ch⟩ := c
    simpa [loadSeq] using hc
  | cons cl cls ih =>
    have hkey := hkeys cl (by simp)
    have hexp : c.is_expired st.cache_ttl cl.env.now = false := by
      by_cases ht : st.cache_ttl ≤ 0
      · simp [CachedModel.is_expired, ht]
      · rcases hnoexp cl (by simp) with h | h
        · exact absurd h ht
        · simp [CachedModel.is_expired, ht, not_lt.mpr h]
    have hstep := load_model_hit st cl.name cl.version cl.stage cl.al cl.env c he
      (by rw [hkey]; exact hc) hexp
    rw [loadSeq, hstep]
    have hrec := ih
      { st with
        cache := mmSet st.cache (_get_cache_key cl.name cl.version cl.stage cl.al)
          { c with hit_count := c.hit_count + 1 },
        stats := { st.stats with
          total_loads := st.stats.total_loads + 1,
          cache_hits := st.stats.cache_hits + 1 } }
      { c with hit_count := c.hit_count + 1 }
      he (by rw [hkey]; exact mmGet_mmSet_self _ _ _)
      (fun u hu => hkeys u (by simp [hu]))
      (fun u hu => hnoexp u (by simp [hu]))
    obtain ⟨h1, h2, h3, h4, h5⟩ := hrec
    dsimp only at h1 h2 h3 h4 h5
    have harith : c.hit_count + 1 + cls.length = c.hit_count + (cls.length + 1) := by omega
    refine ⟨by rw [h1, List.length_cons]; omega,
      by rw [h2, List.length_cons]; omega, h3, h4, ?_⟩
    rw [h5, List.length_cons, harith]

/-- C5: from a fresh cache-enabled manager, `N ≥ 1` `load_model` calls that
all derive the same cache key, the first fetch succeeding and none of the
later calls finding the entry expired, leave `cache_misses = 1` (charged to
the first call), `cache_hits = N - 1` and `total_loads = N`. -/
theorem c5_hit_miss_accounting (T : Int) (f : LoadCall) (r : List LoadCall) (k : String)
    (hk : ∀ cl ∈ f :: r, _get_cache_key cl.name cl.version cl.stage cl.al = k)
    (p : Nat) (ver : String) (hf : f.env.fetch = .ok (p, ver))
    (hnoexp : ∀ cl ∈ r, T ≤ 0 ∨ cl.env.now - f.env.now ≤ T) :
    (loadSeq (mmInit true T) (f :: r)).stats.cache_misses = 1 ∧
      (loadSeq (mmInit true T) (f :: r)).stats.cache_hits = (f :: r).length - 1 ∧
      (loadSeq (mmInit true T) (f :: r)).stats.total_loads = (f :: r).length := by
  have hkey := hk f (by simp)
  have habs : (if (mmInit true T).cache_enabled then
      mmGet (mmInit true T).cache (_get_cache_key f.name f.version f.stage f.al)
      else none) = none := rfl
  rw [loadSeq, load_model_absent _ _ _ _ _ _ habs]
  unfold loadMiss
  rw [hf]
  simp only [if_true, show (mmInit true T).cache_enabled = true from rfl]
  set av := if f.version.isNone ∧ (f.stage.isSome ∨ f.al.isSome) then
      match f.env.resolved with
      | some rv => rv
      | none => ver
    else ver with hav
  have hload := loadSeq_all_hits r
    ⟨mmSet [] (_get_cache_key f.name f.version f.stage f.al) ⟨p, av, f.env.now, 0⟩,
      true, T, ⟨0 + 1, 0, 0 + 1, 0⟩⟩
    k ⟨p, av, f.env.now, 0⟩ rfl
    (by rw [← hkey]; exact mmGet_mmSet_self [] _ _)
    (fun u hu => hk u (by simp [hu]))
    (fun u hu => hnoexp u hu)
  obtain ⟨h1, h2, h3, _, _⟩ := hload
  dsimp only [mmInit] at h1 h2 h3 ⊢
  refine ⟨by rw [h3], by rw [h2, List.length_cons]; omega, by rw [h1, List.length_cons]; omega⟩

/-- C5 witness: two same-key calls from a fresh manager — the second call's
fetch outcome is never consulted (it is a hit), and the stats read
`misses = 1`, `hits = 1`, `total = 2`. -/
theorem c5_hit_miss_accounting_witness :
    (loadSeq (mmInit true 10)
        [⟨"m", some "1", none, none, ⟨0, .ok (7, "1"), none⟩⟩,
          ⟨"m", some "1", none, none, ⟨5, .error "down", none⟩⟩]).stats.cache_misses = 1 ∧
      (loadSeq (mmInit true 10)
        [⟨"m", some "1", none, none, ⟨0, .ok (7, "1"), none⟩⟩,
          ⟨"m", some "1", none, none, ⟨5, .error "down", none⟩⟩]).stats.cache_hits = 1 ∧
      (loadSeq (mmInit true 10)
        [⟨"m", some "1", none, none, ⟨0, .ok (7, "1"), none⟩⟩,
          ⟨"m", some "1", none, none, ⟨5, .error "down", none⟩⟩]).stats.total_loads = 2 :=
  c5_hit_miss_accounting 10 ⟨"m", some "1", none, none, ⟨0, .ok (7, "1"), none⟩⟩
    [⟨"m", some "1", none, none, ⟨5, .error "down", none⟩⟩] "m:v1"
    (by decide) 7 "1" rfl (by decide)

/-! ## C10: the counter invariant -/
/-- Every reachable manager state loads-counts consistently:
`total_loads = cache_hits + cache_misses`. -/
theorem mmReachable_counters {st : MMState} (h : MMReachable st) :
    st.stats.total_loads = st.stats.cache_hits + st.stats.cache_misses := by
  induction h with
  | init enabled ttl => rfl
  | @load st name version stage al env hst ih =>
    rcases hmatch : (if st.cache_enabled then
        mmGet st.cache (_get_cache_key name version stage al) else none) with _ | c
    · rw [load_model_absent st name version stage al env hmatch, loadMiss_stats]
      dsimp only
      omega
    · have he : st.cache_enabled = true := by
        by_contra hne
        rw [Bool.not_eq_true] at hne
        rw [hne] at hmatch
        cases hmatch
      rw [he] at hmatch
      rw [if_pos rfl] at hmatch
      by_cases hexp : c.is_expired st.cache_ttl env.now = true
      · rw [load_model_expired st name version stage al env c he hmatch hexp, loadMiss_stats]
        dsimp only
        omega
      · rw [Bool.not_eq_true] at hexp
        rw [load_model_hit st name version stage al env c he hmatch hexp]
        dsimp only
        omega
  | @invalidate st name hst ih =>
    rw [invalidate_cache_eq]
    exact ih
  | @invalidateAll st hst ih =>
    exact ih

/-- C10: on every reachable `ModelManager` state,
`total_loads = cache_hits + cache_misses` (each `load_model` call increments
`total_loads` and exactly one of the two before any fallible step, and no
other operation touches them), and consequently `hit_rate ∈ [0, 1]`. -/
theorem c10_counter_invariant (st : MMState) (h : MMReachable st) :
    st.stats.total_loads = st.stats.cache_hits + st.stats.cache_misses ∧
      0 ≤ st.stats.hit_rate ∧ st.stats.hit_rate ≤ 1 := by
  have hc := mmReachable_counters h
  refine ⟨hc, ?_, ?_⟩
  · rw [CacheStats.hit_rate]
    split
    · exact le_refl 0
    · positivity
  · rw [CacheStats.hit_rate]
    split
    · exact zero_le_one
    · rename_i hne
      rw [div_le_one (by exact_mod_cast Nat.pos_of_ne_zero hne)]
      exact_mod_cast Nat.le.intro hc.symm

/-- C10 witness: the invariant holds at a concrete reachable state — a fresh
manager after one failing load (a fetch error still counts the miss). -/
theorem c10_counter_invariant_witness :
    (load_model (mmInit true 3600) "m" none none none
        ⟨0, .error "down", none⟩).1.stats.total_loads =
      (load_model (mmInit true 3600) "m" none none none
          ⟨0, .error "down", none⟩).1.stats.cache_hits +
        (load_model (mmInit true 3600) "m" none none none
            ⟨0, .error "down", none⟩).1.stats.cache_misses ∧
      0 ≤ (load_model (mmInit true 3600) "m" none none none
          ⟨0, .error "down", none⟩).1.stats.hit_rate ∧
      (load_model (mmInit true 3600) "m" none none none
          ⟨0, .error "down", none⟩).1.stats.hit_rate ≤ 1 :=
  c10_counter_invariant _
    (MMReachable.load "m" none none none ⟨0, .error "down", none⟩
      (MMReachable.init true 3600))

/-! ## C6: JSON export and output reconciliation -/
/-- Lookup after a dict assignment: the assigned key. -/
theorem pyDictGet_pyDictSet_self (d : List (String × JVal)) (k : String) (v : JVal) :
    pyDictGet (pyDictSet d k v) k = some v := by
  induction d with
  | nil => simp [pyDictSet, pyDictGet]
  | cons p t ih =>
    by_cases hp : p.1 = k
    · simp [pyDictSet, List.any_cons, hp, pyDictGet, List.find?_cons]
    · by_cases hany : t.any (fun p => p.1 = k) = true
      · simp only [pyDictSet, hany, if_true] at ih
        simpa [pyDictSet, List.any_cons, hp, hany, pyDictGet, List.find?_cons] using ih
      · rw [Bool.not_eq_true] at hany
        simp only [pyDictSet, hany, Bool.false_eq_true, if_false] at ih
        simpa [pyDictSet, List.any_cons, hp, hany, pyDictGet, List.find?_cons] using ih

/-- Replacing the bindings of key `k` in place does not affect lookups of a
different key. -/
theorem pyDictGet_map_replace (d : List (String × JVal)) (k : String) (v : JVal)
    (q : String) (hkq : ¬ (k = q)) :
    pyDictGet (d.map (fun p => if p.1 = k then (k, v) else p)) q = pyDictGet d q := by
  induction d with
  | nil => rfl
  | cons p t ih =>
    by_cases hp : p.1 = k
    · have hpq : ¬ (p.1 = q) := fun h => hkq (hp.symm.trans h)
      simpa [pyDictGet, List.find?_cons, hp, hpq, hkq] using ih
    · by_cases hpq : p.1 = q
      · simp only [List.map_cons, if_neg hp]
        simp [pyDictGet, List.find?_cons, hpq]
      · simp only [List.map_cons, if_neg hp]
        simpa [pyDictGet, List.find?_cons, hpq] using ih

/-- Appending a binding for key `k` does not affect lookups of a different
key. -/
theorem pyDictGet_append_single (d : List (String × JVal)) (k : String) (v : JVal)
    (q : String) (hkq : ¬ (k = q)) :
    pyDictGet (d ++ [(k, v)]) q = pyDictGet d q := by
  induction d with
  | nil => simp [pyDictGet, List.find?_cons, hkq]
  | cons p t ih =>
    by_cases hpq : p.1 = q
    · simp [pyDictGet, List.find?_cons, hpq]
    · simpa [pyDictGet, List.find?_cons, hpq] using ih

/-- Lookup after a dict assignment: any other key is untouched. -/
theorem pyDictGet_pyDictSet_other (d : List (String × JVal)) (k : String) (v : JVal)
    (q : String) (hq : q ≠ k) :
    pyDictGet (pyDictSet d k v) q = pyDictGet d q := by
  have hkq : ¬ (k = q) := fun h => hq h.symm
  unfold pyDictSet
  split
  · exact pyDictGet_map_replace d k v q hkq
  · exact pyDictGet_append_single d k v q hkq

/-- One step of the dict-merge fold. -/
theorem pyDictMerge_cons (d : List (String × JVal)) (p : String × JVal)
    (t : List (String × JVal)) :
    pyDictMerge d (p :: t) = pyDictMerge (pyDictSet d p.1 p.2) t := rfl

/-- Merging pairs that do not mention `k` leaves `k`'s binding alone. -/
theorem pyDictGet_pyDictMerge_notin (ps : List (String × JVal)) (d : List (String × JVal))
    (k : String) (hk : k ∉ ps.map Prod.fst) :
    pyDictGet (pyDictMerge d ps) k = pyDictGet d k := by
  induction ps generalizing d with
  | nil => rfl
  | cons p t ih =>
    rw [pyDictMerge_cons, ih (pyDictSet d p.1 p.2) (fun h => hk (by simp [h]))]
    exact pyDictGet_pyDictSet_other d p.1 p.2 k (fun h => hk (by simp [h]))

/-- Merging a duplicate-free pair list binds each of its keys to its value. -/
theorem pyDictGet_pyDictMerge_mem (ps : List (String × JVal)) (d : List (String × JVal))
    (hnd : (ps.map Prod.fst).Nodup) (k : String) (v : JVal) (hmem : (k, v) ∈ ps) :
    pyDictGet (pyDictMerge d ps) k = some v := by
  induction ps generalizing d with
  | nil => cases hmem
  | cons p t ih =>
    rw [pyDictMerge_cons]
    have hnd' := List.nodup_cons.mp hnd
    rcases List.mem_cons.mp hmem with heq | hmemt
    · subst heq
      rw [pyDictGet_pyDictMerge_notin t (pyDictSet d k v) k (by simpa using hnd'.1)]
      exact pyDictGet_pyDictSet_self d k v
    · exact ih (pyDictSet d p.1 p.2) hnd'.2 hmemt

/-- Looking up a chosen-output field in the flat training record: the
metadata assignments only touch `_trace_id` and `_rating`, and the output
merge happens after the input merge, so any other output key keeps its
chosen value. -/
theorem flatRecord_output_lookup (uc : Bool) (row : ExpRow)
    (hnd : ((chosenOutputs uc row).map Prod.fst).Nodup)
    (k : String) (v : JVal) (hmem : (k, v) ∈ chosenOutputs uc row)
    (ht : k ≠ "_trace_id") (hr : k ≠ "_rating") :
    pyDictGet (flatRecord uc row) k = some v := by
  have hbase : pyDictGet (pyDictMerge (pyDictMerge [] (parseInputsCell row.inputs))
      (chosenOutputs uc row)) k = some v :=
    pyDictGet_pyDictMerge_mem _ _ hnd k v hmem
  simp only [flatRecord]
  split
  · rw [pyDictGet_pyDictSet_other _ _ _ k hr]
    split
    · rw [pyDictGet_pyDictSet_other _ _ _ k ht]
      exact hbase
    · exact hbase
  · split
    · rw [pyDictGet_pyDictSet_other _ _ _ k ht]
      exact hbase
    · exact hbase

/-- C6 counterexample: a record whose corrected output contains the metadata
key `_rating` — the exporter overwrites that output field with the record's
rating, so the exported flat record does not equal the corrected output
there. -/
theorem c6_export_json_counterexample :
    pyDictGet (flatRecord true
        ⟨"t1", .empty, .jobj [("a", JVal.str "orig")],
          .jobj [("_rating", JVal.str "x")], "thumbs_up"⟩) "_rating" =
      some (JVal.str "thumbs_up") ∧
    ("_rating", JVal.str "x") ∈ chosenOutputs true
        ⟨"t1", .empty, .jobj [("a", JVal.str "orig")],
          .jobj [("_rating", JVal.str "x")], "thumbs_up"⟩ ∧
    JVal.str "thumbs_up" ≠ JVal.str "x" := by
  refine ⟨rfl, List.mem_singleton.mpr rfl, ?_⟩
  intro h
  injection h with h2
  exact absurd h2 (by decide)

/-- C6 amended: the JSON export serializes exactly the list of flat training
records (one per row, so parsing it back yields `len(records)` objects), and
in each object every field of the chosen output (correctedOutput when
present, else the original outputs) **other than the reserved metadata
fields `_trace_id` and `_rating`** carries the chosen output's value; the
metadata fields themselves are overwritten with the row's trace id and
rating. -/
theorem c6_export_json_amended (rows : List ExpRow) :
    export_training_data rows .json true =
        jdumpPretty 2 0 (.arr ((trainingRecords true rows).map JVal.obj)) ∧
      (trainingRecords true rows).length = rows.length ∧
      ∀ row ∈ rows, ((chosenOutputs true row).map Prod.fst).Nodup →
        ∀ k v, (k, v) ∈ chosenOutputs true row → k ≠ "_trace_id" → k ≠ "_rating" →
          pyDictGet (flatRecord true row) k = some v := by
  refine ⟨by cases rows <;> rfl, by simp [trainingRecords], ?_⟩
  intro row hrow hnd k v hmem ht hr
  exact flatRecord_output_lookup true row hnd k v hmem ht hr

/-- C6 amended witness: one row with a corrected output; its `answer` field
survives into the flat record and the export has one record. -/
theorem c6_export_json_amended_witness :
    pyDictGet (flatRecord true
        ⟨"t1", .jobj [("q", JVal.str "hi")], .jobj [("answer", JVal.str "orig")],
          .jobj [("answer", JVal.str "42")], "thumbs_up"⟩) "answer" =
      some (JVal.str "42") ∧
    (trainingRecords true
        [⟨"t1", .jobj [("q", JVal.str "hi")], .jobj [("answer", JVal.str "orig")],
          .jobj [("answer", JVal.str "42")], "thumbs_up"⟩]).length = 1 :=
  have h := c6_export_json_amended
    [⟨"t1", .jobj [("q", JVal.str "hi")], .jobj [("answer", JVal.str "orig")],
      .jobj [("answer", JVal.str "42")], "thumbs_up"⟩]
  ⟨h.2.2 _ (List.mem_singleton.mpr rfl) (by decide) "answer" (JVal.str "42")
      (List.mem_singleton.mpr rfl) (by decide) (by decide), h.2.1⟩

/-! ## C1: streaming CSV equivalence -/
/-- C1 counterexample: two records with different field sets, chunk size 1.
The full export computes its header (and row padding) over all records,
while each streaming chunk computes its own header and columns, so the
concatenated stream differs from the full export byte-for-byte. -/
theorem c1_streaming_csv_counterexample :
    catChunks (export_streaming
        [⟨"t1", .empty, .jobj [("a", JVal.str "1")], .empty, "thumbs_up"⟩,
          ⟨"t2", .empty, .jobj [("b", JVal.str "2")], .empty, "thumbs_up"⟩] .csv true 1) ≠
      export_training_data
        [⟨"t1", .empty, .jobj [("a", JVal.str "1")], .empty, "thumbs_up"⟩,
          ⟨"t2", .empty, .jobj [("b", JVal.str "2")], .empty, "thumbs_up"⟩] .csv true ∧
      1 ≤ 1 := by
  constructor
  · decide
  · decide

/-- `split("\n")` never yields the empty list. -/
theorem pySplitNl_ne_nil (s : List Char) : pySplitNl s ≠ [] := by
  cases s with
  | nil => simp [pySplitNl]
  | cons c t =>
    rw [pySplitNl]
    split
    · simp
    · split <;> simp

/-- Joining the split restores the string. -/
theorem joinSep_pySplitNl (s : List Char) : joinSep ['\n'] (pySplitNl s) = s := by
  induction s with
  | nil => rfl
  | cons c t ih =>
    rw [pySplitNl]
    by_cases hc : c = '\n'
    · rw [if_pos hc]
      rcases hsp : pySplitNl t with _ | ⟨h, r⟩
      · exact absurd hsp (pySplitNl_ne_nil t)
      · rw [hsp] at ih
        rw [joinSep, hc]
        simpa using ih
    · rw [if_neg hc]
      rcases hsp : pySplitNl t with _ | ⟨h, r⟩
      · exact absurd hsp (pySplitNl_ne_nil t)
      · rw [hsp] at ih
        cases r with
        | nil => rw [joinSep]; rw [joinSep] at ih; rw [ih]
        | cons h2 r2 =>
          rw [joinSep]
          rw [joinSep] at ih
          rw [List.cons_append, List.cons_append, ih]

/-- Splitting a string whose first line is newline-free peels that line. -/
theorem pySplitNl_append (h rest : List Char) (hnl : ∀ u ∈ h, u ≠ '\n') :
    pySplitNl (h ++ '\n' :: rest) = h :: pySplitNl rest := by
  induction h with
  | nil => simp [pySplitNl]
  | cons c t ih =>
    have hc : ¬ (c = '\n') := hnl c (by simp)
    rw [List.cons_append, pySplitNl, if_neg hc, ih (fun u hu => hnl u (by simp [hu]))]

/-- The CSV header-stripping step, applied to a chunk whose header content is
newline-free, yields exactly the chunk body. -/
theorem stripCsvHeaderChunk_eq (content body : List Char)
    (hnl : ∀ u ∈ content, u ≠ '\n') :
    stripCsvHeaderChunk ((content ++ ['\r', '\n']) ++ body) = [body] := by
  have hshape : (content ++ ['\r', '\n']) ++ body = (content ++ ['\r']) ++ '\n' :: body := by
    simp
  have hnl' : ∀ u ∈ content ++ ['\r'], u ≠ '\n' := by
    intro u hu
    rcases List.mem_append.mp hu with h | h
    · exact hnl u h
    · simp only [List.mem_singleton] at h
      subst h
      decide
  rw [stripCsvHeaderChunk, hshape, pySplitNl_append _ _ hnl']
  have hlen : 1 < ((content ++ ['\r']) :: pySplitNl body).length := by
    rcases hsp : pySplitNl body with _ | ⟨h, r⟩
    · exact absurd hsp (pySplitNl_ne_nil body)
    · simp
  rw [if_pos hlen]
  simp only [List.tail_cons]
  rw [joinSep_pySplitNl]

/-- Membership in a `joinSep`: every character comes from the separator or
from one of the parts. -/
theorem joinSep_mem (sep : List Char) (ls : List (List Char)) (u : Char)
    (h : u ∈ joinSep sep ls) : u ∈ sep ∨ ∃ l ∈ ls, u ∈ l := by
  induction ls with
  | nil => cases h
  | cons x t ih =>
    cases t with
    | nil =>
      rw [joinSep] at h
      exact .inr ⟨x, by simp, h⟩
    | cons y t2 =>
      rw [joinSep] at h
      rcases List.mem_append.mp h with h1 | h2
      · rcases List.mem_append.mp h1 with hx | hs
        · exact .inr ⟨x, by simp, hx⟩
        · exact .inl hs
      · rcases ih h2 with hs | ⟨l, hl, hu⟩
        · exact .inl hs
        · exact .inr ⟨l, by simp [hl], hu⟩

/-- CSV field encoding introduces no newline. -/
theorem csvEncodeField_no_nl (s : List Char) (h : '\n' ∉ s) : '\n' ∉ csvEncodeField s := by
  rw [csvEncodeField]
  split
  · intro hmem
    rcases List.mem_cons.mp hmem with h1 | h2
    · cases h1
    · rcases List.mem_append.mp h2 with h3 | h4
      · rcases List.mem_flatMap.mp h3 with ⟨c, hc, hin⟩
        by_cases hq : c = '"'
        · rw [if_pos hq] at hin
          rcases List.mem_cons.mp hin with h5 | h5 <;> simp_all
        · rw [if_neg hq] at hin
          rw [List.mem_singleton] at hin
          exact h (hin ▸ hc)
      · rw [List.mem_singleton] at h4
        cases h4
  · exact h

/-- The pre-terminator content of a CSV line over newline-free cells is
newline-free. -/
theorem csvLine_content_no_nl (cells : List (List Char))
    (h : ∀ s ∈ cells, '\n' ∉ s) (u : Char)
    (hu : u ∈ joinSep [','] (cells.map csvEncodeField) ++ ['\r']) : u ≠ '\n' := by
  rcases List.mem_append.mp hu with h1 | h2
  · rcases joinSep_mem _ _ _ h1 with hs | ⟨l, hl, hul⟩
    · rw [List.mem_singleton] at hs
      subst hs
      decide
    · rcases List.mem_map.mp hl with ⟨s, hsc, rfl⟩
      intro heq
      exact csvEncodeField_no_nl s (h s hsc) (heq ▸ hul)
  · rw [List.mem_singleton] at h2
    subst h2
    decide

/-- Characters with equal code points are equal. -/
theorem char_toNat_inj {a b : Char} (h : a.toNat = b.toNat) : a = b :=
  Char.ext (UInt32.ext h)

/-- The code-point order is total. -/
theorem lexLeCh_total (x y : List Char) : lexLeCh x y = true ∨ lexLeCh y x = true := by
  induction x generalizing y with
  | nil => exact .inl rfl
  | cons a as ih =>
    cases y with
    | nil => exact .inr rfl
    | cons b bs =>
      rw [lexLeCh, lexLeCh]
      by_cases hab : a.toNat < b.toNat
      · exact .inl (by simp [hab])
      · by_cases hba : b.toNat < a.toNat
        · exact .inr (by simp [hba])
        · rcases ih bs with h | h
          · exact .inl (by simp [hab, hba, h])
          · exact .inr (by simp [hab, hba, h])

/-- One unfolded step of the code-point order. -/
theorem lexLeCh_cons_iff (a b : Char) (as bs : List Char) :
    lexLeCh (a :: as) (b :: bs) = true ↔
      a.toNat < b.toNat ∨ (a.toNat = b.toNat ∧ lexLeCh as bs = true) := by
  rw [lexLeCh]
  by_cases hab : a.toNat < b.toNat
  · simp [hab]
  · by_cases hba : b.toNat < a.toNat
    · simp [hab, hba]
      omega
    · have heq : a.toNat = b.toNat := by omega
      simp [hab, hba, heq]

/-- The code-point order is transitive. -/
theorem lexLeCh_trans (x y z : List Char) (hxy : lexLeCh x y = true)
    (hyz : lexLeCh y z = true) : lexLeCh x z = true := by
  induction x generalizing y z with
  | nil => rfl
  | cons a as ih =>
    cases y with
    | nil => cases hxy
    | cons b bs =>
      cases z with
      | nil => cases hyz
      | cons c cs =>
        rcases (lexLeCh_cons_iff a b as bs).mp hxy with h1 | ⟨h1, hr1⟩ <;>
          rcases (lexLeCh_cons_iff b c bs cs).mp hyz with h2 | ⟨h2, hr2⟩
        · exact (lexLeCh_cons_iff a c as cs).mpr (.inl (by omega))
        · exact (lexLeCh_cons_iff a c as cs).mpr (.inl (by omega))
        · exact (lexLeCh_cons_iff a c as cs).mpr (.inl (by omega))
        · exact (lexLeCh_cons_iff a c as cs).mpr (.inr ⟨by omega, ih bs cs hr1 hr2⟩)

/-- The code-point order is antisymmetric. -/
theorem lexLeCh_antisymm (x y : List Char) (hxy : lexLeCh x y = true)
    (hyx : lexLeCh y x = true) : x = y := by
  induction x generalizing y with
  | nil => cases y with
    | nil => rfl
    | cons b bs => cases hyx
  | cons a as ih =>
    cases y with
    | nil => cases hxy
    | cons b bs =>
      rcases (lexLeCh_cons_iff a b as bs).mp hxy with h1 | ⟨h1, hr1⟩ <;>
        rcases (lexLeCh_cons_iff b a bs as).mp hyx with h2 | ⟨h2, hr2⟩ <;>
        try omega
      rw [char_toNat_inj h1, ih bs hr1 hr2]

instance : IsTotal String (fun a b => pyStrLe a b = true) :=
  ⟨fun a b => lexLeCh_total a.data b.data⟩

instance : IsTrans String (fun a b => pyStrLe a b = true) :=
  ⟨fun a b c => lexLeCh_trans a.data b.data c.data⟩

instance : IsAntisymm String (fun a b => pyStrLe a b = true) :=
  ⟨fun a b h1 h2 => strDataInj (lexLeCh_antisymm a.data b.data h1 h2)⟩

/-- Sorting two duplicate-free lists with the same members gives the same
result (Python's `sorted` of equal sets agrees). -/
theorem pySorted_congr (l1 l2 : List String) (h1 : l1.Nodup) (h2 : l2.Nodup)
    (hm : ∀ a, a ∈ l1 ↔ a ∈ l2) : pySorted l1 = pySorted l2 := by
  have hp : l1.Perm l2 := (List.perm_ext_iff_of_nodup h1 h2).mpr hm
  have hperm : (pySorted l1).Perm (pySorted l2) :=
    ((List.perm_insertionSort _ l1).trans hp).trans (List.perm_insertionSort _ l2).symm
  exact List.eq_of_perm_of_sorted hperm (List.sorted_insertionSort _ l1)
    (List.sorted_insertionSort _ l2)

/-- `fieldNames` only depends on the set of keys occurring in the records. -/
theorem fieldNames_congr (r1 r2 : List (List (String × JVal)))
    (hm : ∀ f, f ∈ (r1.map (fun r => r.map Prod.fst)).flatten ↔
      f ∈ (r2.map (fun r => r.map Prod.fst)).flatten) :
    fieldNames r1 = fieldNames r2 := by
  simp only [fieldNames]
  have hmain : ∀ (p : String → Bool),
      pySorted (((r1.map (fun r => r.map Prod.fst)).flatten.dedup).filter p) =
        pySorted (((r2.map (fun r => r.map Prod.fst)).flatten.dedup).filter p) := by
    intro p
    refine pySorted_congr _ _ (List.Nodup.filter p (List.nodup_dedup _))
      (List.Nodup.filter p (List.nodup_dedup _)) ?_
    intro f
    simp only [List.mem_filter, List.mem_dedup]
    exact and_congr_left (fun _ => hm f)
  rw [hmain, hmain]

/-- `fieldNames` of a non-empty chunk equals `fieldNames` of the whole row
list when all rows share one flat-record key set. -/
theorem fieldNames_chunk_eq (uc : Bool) (rows c : List ExpRow)
    (hc : ∀ r ∈ c, r ∈ rows) (hne : c ≠ [])
    (hsame : ∀ r1 ∈ rows, ∀ r2 ∈ rows, ∀ f,
      f ∈ (flatRecord uc r1).map Prod.fst ↔ f ∈ (flatRecord uc r2).map Prod.fst) :
    fieldNames (trainingRecords uc c) = fieldNames (trainingRecords uc rows) := by
  apply fieldNames_congr
  intro f
  have hmem : ∀ (l : List ExpRow),
      f ∈ ((trainingRecords uc l).map (fun r => r.map Prod.fst)).flatten ↔
        ∃ r ∈ l, f ∈ (flatRecord uc r).map Prod.fst := by
    intro l
    rw [trainingRecords, List.map_map, List.mem_flatten]
    constructor
    · rintro ⟨ks, hks, hf⟩
      rcases List.mem_map.mp hks with ⟨r, hr, rfl⟩
      exact ⟨r, hr, hf⟩
    · rintro ⟨r, hr, hf⟩
      exact ⟨(flatRecord uc r).map Prod.fst, List.mem_map.mpr ⟨r, hr, rfl⟩, hf⟩
  rw [hmem c, hmem rows]
  obtain ⟨r0, hr0⟩ : ∃ r, r ∈ c := by
    cases c with
    | nil => exact absurd rfl hne
    | cons x t => exact ⟨x, by simp⟩
  constructor
  · rintro ⟨r, hr, hf⟩
    exact ⟨r, hc r hr, hf⟩
  · rintro ⟨r, hr, hf⟩
    exact ⟨r0, hr0, (hsame r hr r0 (hc r0 hr0) f).mp hf⟩

/-- With enough fuel and a positive chunk size, the chunks flatten back to
the original list. -/
theorem chunksOfFuel_flatten (k : Nat) (hk : 1 ≤ k) (fuel : Nat) :
    ∀ (l : List ExpRow), l.length ≤ fuel → (chunksOfFuel k fuel l).flatten = l := by
  induction fuel with
  | zero =>
    intro l hl
    have : l = [] := List.eq_nil_of_length_eq_zero (Nat.le_zero.mp hl)
    subst this
    rfl
  | succ n ih =>
    intro l hl
    cases l with
    | nil => rfl
    | cons a t =>
      rw [chunksOfFuel, List.flatten_cons, ih ((a :: t).drop k) ?_, List.take_append_drop]
      rw [List.length_drop]
      simp only [List.length_cons] at hl ⊢
      omega

/-- The chunks of `export_streaming` flatten back to the rows. -/
theorem dfChunks_flatten (k : Nat) (hk : 1 ≤ k) (l : List ExpRow) :
    (dfChunks k l).flatten = l :=
  chunksOfFuel_flatten k hk l.length l (le_refl _)

/-- No chunk is empty. -/
theorem chunksOfFuel_ne_nil (k : Nat) (hk : 1 ≤ k) (fuel : Nat) :
    ∀ (l c : List ExpRow), c ∈ chunksOfFuel k fuel l → c ≠ [] := by
  induction fuel with
  | zero =>
    intro l c hc
    cases l with
    | nil => cases hc
    | cons a t =>
      rw [chunksOfFuel, List.mem_singleton] at hc
      subst hc
      simp
  | succ n ih =>
    intro l c hc
    cases l with
    | nil => cases hc
    | cons a t =>
      rw [chunksOfFuel] at hc
      rcases List.mem_cons.mp hc with heq | hmem
      · obtain ⟨k2, rfl⟩ := Nat.exists_eq_succ_of_ne_zero (by omega : k ≠ 0)
        rw [List.take_succ_cons] at heq
        subst heq
        simp
      · exact ih ((a :: t).drop k) c hmem

/-- No `dfChunks` chunk is empty. -/
theorem dfChunks_ne_nil (k : Nat) (hk : 1 ≤ k) (l c : List ExpRow)
    (hc : c ∈ dfChunks k l) : c ≠ [] :=
  chunksOfFuel_ne_nil k hk l.length l c hc

/-- `_export_csv` on a non-empty record list: header then rows. -/
theorem _export_csv_cons (recs : List (List (String × JVal))) (h : recs ≠ []) :
    _export_csv recs =
      csvHeaderLine (fieldNames recs) ++ (recs.map (csvRowLine (fieldNames recs))).flatten := by
  have hie : recs.isEmpty = false := by
    cases recs with
    | nil => exact absurd rfl h
    | cons x t => rfl
  rw [_export_csv, hie]
  rfl

/-- `export_training_data` in CSV format on non-empty rows. -/
theorem export_training_data_csv (rows : List ExpRow) (uc : Bool) (h : rows ≠ []) :
    export_training_data rows .csv uc = _export_csv (trainingRecords uc rows) := by
  have hie : rows.isEmpty = false := by
    cases rows with
    | nil => exact absurd rfl h
    | cons x t => rfl
  rw [export_training_data, hie]
  rfl

/-- Flattening chunked flattens. -/
theorem flatten_map_flatten {α β : Type} (chunks : List (List α)) (h : α → List β) :
    ((chunks.map (fun c => (c.map h).flatten)).flatten) = ((chunks.flatten).map h).flatten := by
  induction chunks with
  | nil => rfl
  | cons c t ih => simp [List.map_append, List.flatten_append, ih]

/-- Flattening a list of singletons is a map. -/
theorem flatten_map_singleton {α β : Type} (l : List α) (g : α → List β) :
    ((l.map (fun c => [g c])).flatten) = l.map g := by
  induction l with
  | nil => rfl
  | cons x t ih => simp [ih]

/-- C1 amended: for every chunk size `k ≥ 1`, concatenating the chunks of
`export_streaming(rows, "csv", k)` is byte-for-byte the full
`export_training_data(rows, "csv")` **provided all rows produce the same
flat-record field set** (and no field name contains a newline, which would
defeat the line-based header stripping); with heterogeneous field sets the
per-chunk headers and columns differ from the full export (see
`c1_streaming_csv_counterexample`). -/
theorem c1_streaming_csv_amended (rows : List ExpRow) (uc : Bool) (k : Nat) (hk : 1 ≤ k)
    (hsame : ∀ r1 ∈ rows, ∀ r2 ∈ rows, ∀ f,
      f ∈ (flatRecord uc r1).map Prod.fst ↔ f ∈ (flatRecord uc r2).map Prod.fst)
    (hnl : ∀ f ∈ fieldNames (trainingRecords uc rows), '\n' ∉ f.data) :
    catChunks (export_streaming rows .csv uc k) = export_training_data rows .csv uc := by
  cases rows with
  | nil => rfl
  | cons r0 rt =>
    have hne : (r0 :: rt : List ExpRow) ≠ [] := by simp
    have hchunk : ∀ c ∈ dfChunks k (r0 :: rt),
        export_training_data c .csv uc =
          csvHeaderLine (fieldNames (trainingRecords uc (r0 :: rt))) ++
            ((trainingRecords uc c).map
              (csvRowLine (fieldNames (trainingRecords uc (r0 :: rt))))).flatten := by
      intro c hcmem
      have hcne : c ≠ [] := dfChunks_ne_nil k hk _ c hcmem
      have hsub : ∀ r ∈ c, r ∈ (r0 :: rt) := by
        intro r hr
        have hmem : r ∈ (dfChunks k (r0 :: rt)).flatten := List.mem_flatten.mpr ⟨c, hcmem, hr⟩
        rwa [dfChunks_flatten k hk] at hmem
      have hFc := fieldNames_chunk_eq uc (r0 :: rt) c hsub hcne hsame
      have htne : trainingRecords uc c ≠ [] := by
        cases c with
        | nil => exact absurd rfl hcne
        | cons x t => simp [trainingRecords]
      rw [export_training_data_csv c uc hcne, _export_csv_cons _ htne, hFc]
    have hstrip : ∀ c ∈ dfChunks k (r0 :: rt),
        stripCsvHeaderChunk (export_training_data c .csv uc) =
          [((trainingRecords uc c).map
            (csvRowLine (fieldNames (trainingRecords uc (r0 :: rt))))).flatten] := by
      intro c hcmem
      rw [hchunk c hcmem]
      have hcells : ∀ s ∈ (fieldNames (trainingRecords uc (r0 :: rt))).map String.data,
          '\n' ∉ s := by
        intro s hs
        rcases List.mem_map.mp hs with ⟨f, hf, rfl⟩
        exact hnl f hf
      have hcontent : ∀ u ∈ joinSep [',']
          (((fieldNames (trainingRecords uc (r0 :: rt))).map String.data).map csvEncodeField),
          u ≠ '\n' := fun u hu =>
        csvLine_content_no_nl _ hcells u (List.mem_append.mpr (.inl hu))
      exact stripCsvHeaderChunk_eq _ _ hcontent
    rcases hch : dfChunks k (r0 :: rt) with _ | ⟨c0, cs⟩
    · exfalso
      have hj := dfChunks_flatten k hk (r0 :: rt)
      rw [hch] at hj
      cases hj
    · have hstream : export_streaming (r0 :: rt) .csv uc k =
          export_training_data c0 .csv uc ::
            cs.flatMap (fun c => stripCsvHeaderChunk (export_training_data c .csv uc)) := by
        rw [export_streaming]
        simp only [List.isEmpty_cons, Bool.false_eq_true, if_false, hch]
      rw [hstream, catChunks, List.flatten_cons]
      have hfm : cs.flatMap (fun c => stripCsvHeaderChunk (export_training_data c .csv uc)) =
          cs.map (fun c => ((trainingRecords uc c).map
            (csvRowLine (fieldNames (trainingRecords uc (r0 :: rt))))).flatten) := by
        rw [List.flatMap_def,
          List.map_congr_left (fun c hcmem =>
            hstrip c (by rw [hch]; exact List.mem_cons_of_mem _ hcmem))]
        exact flatten_map_singleton cs _
      rw [hfm, hchunk c0 (by rw [hch]; simp)]
      rw [export_training_data_csv _ uc hne, _export_csv_cons _ (by simp [trainingRecords])]
      rw [List.append_assoc]
      congr 1
      calc ((trainingRecords uc c0).map
              (csvRowLine (fieldNames (trainingRecords uc (r0 :: rt))))).flatten ++
            (cs.map (fun c => ((trainingRecords uc c).map
              (csvRowLine (fieldNames (trainingRecords uc (r0 :: rt))))).flatten)).flatten
          = ((c0 :: cs).map (fun c => ((trainingRecords uc c).map
              (csvRowLine (fieldNames (trainingRecords uc (r0 :: rt))))).flatten)).flatten := by
            rw [List.map_cons, List.flatten_cons]
        _ = ((c0 :: cs).map (fun c => (c.map
              (csvRowLine (fieldNames (trainingRecords uc (r0 :: rt))) ∘
                flatRecord uc)).flatten)).flatten := by
            refine congrArg List.flatten (List.map_congr_left (fun c hcmem => ?_))
            exact congrArg List.flatten (List.map_map _ _ c)
        _ = (((c0 :: cs).flatten.map
              (csvRowLine (fieldNames (trainingRecords uc (r0 :: rt))) ∘
                flatRecord uc))).flatten :=
            flatten_map_flatten (c0 :: cs) _
        _ = ((r0 :: rt).map
              (csvRowLine (fieldNames (trainingRecords uc (r0 :: rt))) ∘
                flatRecord uc)).flatten := by
            rw [← hch, dfChunks_flatten k hk]
        _ = ((trainingRecords uc (r0 :: rt)).map
              (csvRowLine (fieldNames (trainingRecords uc (r0 :: rt))))).flatten :=
            (congrArg List.flatten (List.map_map _ _ (r0 :: rt))).symm

/-- C1 amended witness: two homogeneous rows, chunk size 1 — the
concatenated stream equals the full export. -/
theorem c1_streaming_csv_amended_witness :
    catChunks (export_streaming
        [⟨"t1", .empty, .jobj [("a", JVal.str "1")], .empty, "thumbs_up"⟩,
          ⟨"t3", .empty, .jobj [("a", JVal.str "9")], .empty, "thumbs_up"⟩] .csv true 1) =
      export_training_data
        [⟨"t1", .empty, .jobj [("a", JVal.str "1")], .empty, "thumbs_up"⟩,
          ⟨"t3", .empty, .jobj [("a", JVal.str "9")], .empty, "thumbs_up"⟩] .csv true :=
  c1_streaming_csv_amended
    [⟨"t1", .empty, .jobj [("a", JVal.str "1")], .empty, "thumbs_up"⟩,
      ⟨"t3", .empty, .jobj [("a", JVal.str "9")], .empty, "thumbs_up"⟩] true 1 (by decide)
    (by
      intro a ha b hb f
      fin_cases ha <;> fin_cases hb <;> exact Iff.rfl)
    (by decide)
